import Mathlib

/-!
# PegBoard: a verification development for the Cracker Barrel peg-board solver

The definitions below embed `src/PegBoard.cpp`.

* `Peg`, `Direction`, `choice`, `Moves`, `ValidMoves` follow the enums and typedefs.
* `Board` is the `int board[5][11]` array restricted to the three `Peg` values; the
  cells are stored row-major, cell `(row, col)` at position `row * 11 + col`.
* `jump`, `undo`, `validMove`, `findValidMoves`, `solve` follow the functions of the
  same names.  Rows, columns and the direction argument of `solve` are `Int`, since
  the source uses `-1` as a sentinel and computes `col - 4`, `row - 2`, ...
* `solve` is recursive without a syntactic bound in the source; the embedding takes a
  recursion budget (`fuel`) and returns `none` when the call does not return
  (budget exhausted, or the `default:` branch `exit(EXIT_FAILURE)` was reached).
  Termination theorems show that a budget above the number of pegs always suffices.
-/

namespace PegBoard

/-! ## Data model -/

/-- Source: `enum Direction {R, DR, DL, L, UL, UR}`. -/
inductive Direction
  | R | DR | DL | L | UL | UR
  deriving DecidableEq

/-- Source: `enum Peg {EMPTY, USED, UNUSED}`. -/
inductive Peg
  | EMPTY | USED | UNUSED
  deriving DecidableEq

open Direction Peg

/-- The integer value of an enumerator of `Direction` (`R` is 0, ..., `UR` is 5). -/
def Direction.toInt : Direction → Int
  | R => 0
  | DR => 1
  | DL => 2
  | L => 3
  | UL => 4
  | UR => 5

/-- The `static_cast<Direction>(i)` followed by the `switch` of `jump`/`undo`/`validMove`:
the six enumerators are recognised, every other value reaches `default:`. -/
def Direction.ofInt (i : Int) : Option Direction :=
  if i = 0 then some R
  else if i = 1 then some DR
  else if i = 2 then some DL
  else if i = 3 then some L
  else if i = 4 then some UL
  else if i = 5 then some UR
  else none

/-- Source: `typedef pair<pair<int, int>, int> choice`. -/
abbrev choice := (Int × Int) × Int

/-- Source: `typedef stack<choice> Moves`; the head of the list is the top of the stack. -/
abbrev Moves := List choice

/-- Source: `typedef queue<choice> ValidMoves`; the head of the list is the front. -/
abbrev ValidMoves := List choice

/-- Source: `int board[5][11]` holding `Peg` values, stored row-major. -/
structure Board where
  cells : List Peg
  size : cells.length = 55

instance : DecidableEq Board := fun a b =>
  if h : a.cells = b.cells then isTrue (by cases a; cases b; simp_all)
  else isFalse (fun e => h (by rw [e]))

/-- The index pair `(row, col)` addresses a cell of the 5x11 array. -/
def inGrid (row col : Int) : Prop := 0 ≤ row ∧ row < 5 ∧ 0 ≤ col ∧ col < 11

instance (row col : Int) : Decidable (inGrid row col) := by
  unfold inGrid; infer_instance

/-- Read `board[row][col]`.  Outside the array the C++ read is undefined; the model
yields `UNUSED` there (no theorem depends on it). -/
def Board.get (board : Board) (row col : Int) : Peg :=
  if inGrid row col then board.cells.getD (row * 11 + col).toNat UNUSED else UNUSED

/-- Write `board[row][col] = v`.  Outside the array the C++ write is undefined; the
model leaves the board alone there (no theorem depends on it). -/
def Board.set (board : Board) (row col : Int) (v : Peg) : Board :=
  if inGrid row col then
    ⟨board.cells.set (row * 11 + col).toNat v, by rw [List.length_set]; exact board.size⟩
  else board

/-- Build a board from its 55 cells in row-major order. -/
def Board.ofList (l : List Peg) (h : l.length = 55) : Board := ⟨l, h⟩

/-! ## Operations -/

/-- Source: `void jump(int board[5][11], int row, int col, Direction dir)`. -/
def jump (board : Board) (row col : Int) (dir : Direction) : Board :=
  let board := board.set row col EMPTY
  match dir with
  | R => (board.set row (col - 2) EMPTY).set row (col - 4) USED
  | DR => (board.set (row - 1) (col - 1) EMPTY).set (row - 2) (col - 2) USED
  | DL => (board.set (row - 1) (col + 1) EMPTY).set (row - 2) (col + 2) USED
  | L => (board.set row (col + 2) EMPTY).set row (col + 4) USED
  | UL => (board.set (row + 1) (col + 1) EMPTY).set (row + 2) (col + 2) USED
  | UR => (board.set (row + 1) (col - 1) EMPTY).set (row + 2) (col - 2) USED

/-- Source: `void undo(int board[5][11], int row, int col, Direction dir)`. -/
def undo (board : Board) (row col : Int) (dir : Direction) : Board :=
  let board := board.set row col USED
  match dir with
  | R => (board.set row (col - 2) USED).set row (col - 4) EMPTY
  | DR => (board.set (row - 1) (col - 1) USED).set (row - 2) (col - 2) EMPTY
  | DL => (board.set (row - 1) (col + 1) USED).set (row - 2) (col + 2) EMPTY
  | L => (board.set row (col + 2) USED).set row (col + 4) EMPTY
  | UL => (board.set (row + 1) (col + 1) USED).set (row + 2) (col + 2) EMPTY
  | UR => (board.set (row + 1) (col - 1) USED).set (row + 2) (col - 2) EMPTY

/-- Source: `bool validMove(board, i, emptyPegRow, emptyPegCol, &legalMoveRow, &legalMoveCol)`.
The result is the returned boolean together with the final values of the two
reference parameters `legalMoveRow`, `legalMoveCol`. -/
def validMove (board : Board) (i : Direction) (emptyPegRow emptyPegCol : Int) :
    Bool × Int × Int :=
  match i with
  | R =>
    if emptyPegCol + 4 > 9 then (false, emptyPegRow, emptyPegCol)
    else (decide (board.get emptyPegRow (emptyPegCol + 2) = USED)
            && decide (board.get emptyPegRow (emptyPegCol + 4) = USED),
          emptyPegRow, emptyPegCol + 4)
  | DR =>
    if emptyPegRow + 2 > 4 ∨ emptyPegCol + 2 > 9 then (false, emptyPegRow, emptyPegCol)
    else (decide (board.get (emptyPegRow + 1) (emptyPegCol + 1) = USED)
            && decide (board.get (emptyPegRow + 2) (emptyPegCol + 2) = USED),
          emptyPegRow + 2, emptyPegCol + 2)
  | DL =>
    if emptyPegRow + 2 > 4 ∨ emptyPegCol - 2 < 1 then (false, emptyPegRow, emptyPegCol)
    else (decide (board.get (emptyPegRow + 1) (emptyPegCol - 1) = USED)
            && decide (board.get (emptyPegRow + 2) (emptyPegCol - 2) = USED),
          emptyPegRow + 2, emptyPegCol - 2)
  | L =>
    if emptyPegCol - 4 < 1 then (false, emptyPegRow, emptyPegCol)
    else (decide (board.get emptyPegRow (emptyPegCol - 2) = USED)
            && decide (board.get emptyPegRow (emptyPegCol - 4) = USED),
          emptyPegRow, emptyPegCol - 4)
  | UL =>
    if emptyPegRow - 2 < 0 ∨ emptyPegCol - 2 < 1 then (false, emptyPegRow, emptyPegCol)
    else (decide (board.get (emptyPegRow - 1) (emptyPegCol - 1) = USED)
            && decide (board.get (emptyPegRow - 2) (emptyPegCol - 2) = USED),
          emptyPegRow - 2, emptyPegCol - 2)
  | UR =>
    if emptyPegRow - 2 < 0 ∨ emptyPegCol + 2 > 9 then (false, emptyPegRow, emptyPegCol)
    else (decide (board.get (emptyPegRow - 1) (emptyPegCol + 1) = USED)
            && decide (board.get (emptyPegRow - 2) (emptyPegCol + 2) = USED),
          emptyPegRow - 2, emptyPegCol + 2)

/-- The values of the loop variable of `for(int i = R; i <= UR; i++)`, in order. -/
def directionLoop : List Direction := [R, DR, DL, L, UL, UR]

/-- The values of the loop variable of `for(int row = 0; row < 5; row++)`, in order. -/
def rowLoop : List Int := [0, 1, 2, 3, 4]

/-- The values of the loop variable of `for(int col = 0; col < 11; col++)`, in order. -/
def colLoop : List Int := [0, 1, 2, 3, 4, 5, 6, 7, 8, 9, 10]

/-- The innermost loop of `findValidMoves` at one EMPTY cell: every direction whose
`validMove` call succeeds is pushed as `((moveRow, moveCol), i)`. -/
def pushValid (board : Board) (row col : Int) (validMoves : ValidMoves) : ValidMoves :=
  directionLoop.foldl
    (fun q i =>
      let r := validMove board i row col
      if r.1 then q ++ [((r.2.1, r.2.2), i.toInt)] else q)
    validMoves

/-- Source: `int findValidMoves(int board[5][11], ValidMoves &validMoves)`, called with
an empty queue.  Returns `(emptyCount, validMoves)`. -/
def findValidMoves (board : Board) : Nat × ValidMoves :=
  rowLoop.foldl
    (fun acc row =>
      colLoop.foldl
        (fun acc col =>
          if board.get row col = EMPTY then (acc.1 + 1, pushValid board row col acc.2)
          else acc)
        acc)
    (0, [])

/-- The `while(!validMoves.empty() && !solved)` loop of `solve`; `call` is the recursive
call `solve(board, history, row, col, dir)`.  Returns `(solved, board, history)`. -/
def solveLoop (call : Board → Moves → Int → Int → Int → Option (Bool × Board × Moves)) :
    ValidMoves → Bool → Board → Moves → Option (Bool × Board × Moves)
  | [], solved, board, history => some (solved, board, history)
  | front :: validMoves, solved, board, history =>
    if solved then some (solved, board, history)
    else
      match call board history front.1.1 front.1.2 front.2 with
      | none => none
      | some (solved, board, history) =>
        let history := if !solved then history.tail else history
        match Direction.ofInt front.2 with
        | none => none
        | some d => solveLoop call validMoves solved (undo board front.1.1 front.1.2 d) history

/-- The part of `solve` after the optional jump: `findValidMoves`, the two early
returns, the `while` loop and the final `return`; `call` is the recursive call. -/
def solveRest (call : Board → Moves → Int → Int → Int → Option (Bool × Board × Moves))
    (board : Board) (history : Moves) : Option (Bool × Board × Moves) :=
  let found := findValidMoves board
  if found.1 = 14 then some (true, board, history)
  else if found.2.isEmpty then some (false, board, history)
  else solveLoop call found.2 false board history

/-- Source: `bool solve(int board[5][11], Moves &history, int row, int col, Direction dir)`.
The board and the history are passed by reference in the source, so the result is
`(returned value, board afterwards, history afterwards)`. -/
def solve : Nat → Board → Moves → Int → Int → Int → Option (Bool × Board × Moves)
  | 0, _, _, _, _, _ => none
  | fuel + 1, board, history, row, col, dir =>
    if row ≠ -1 ∧ col ≠ -1 ∧ dir ≠ -1 then
      match Direction.ofInt dir with
      | none => none
      | some d => solveRest (solve fuel) (jump board row col d) (((row, col), dir) :: history)
    else solveRest (solve fuel) board history

/-- The initial call of `main`: `solve(board, history, -1, -1, static_cast<Direction>(-1))`
with a freshly constructed (empty) `history`. -/
def solveInitial (fuel : Nat) (board : Board) : Option (Bool × Board × Moves) :=
  solve fuel board [] (-1) (-1) (-1)

/-- The board literal of `main`. -/
def initialBoard : Board := Board.ofList
  [UNUSED, UNUSED, UNUSED, UNUSED, UNUSED, USED, UNUSED, UNUSED, UNUSED, UNUSED, UNUSED,
   UNUSED, UNUSED, UNUSED, UNUSED, USED, UNUSED, USED, UNUSED, UNUSED, UNUSED, UNUSED,
   UNUSED, UNUSED, UNUSED, USED, UNUSED, USED, UNUSED, USED, UNUSED, UNUSED, UNUSED,
   UNUSED, UNUSED, USED, UNUSED, USED, UNUSED, USED, UNUSED, USED, UNUSED, UNUSED,
   UNUSED, USED, UNUSED, USED, UNUSED, EMPTY, UNUSED, USED, UNUSED, USED, UNUSED]
  (by decide)

/-! ## Notions used to state the properties -/

/-- The cell one step from `(row, col)` along `dir`: the cell that `jump` sets to EMPTY
besides the source (the jumped-over cell). -/
def jumpedCell (row col : Int) : Direction → Int × Int
  | R => (row, col - 2)
  | DR => (row - 1, col - 1)
  | DL => (row - 1, col + 1)
  | L => (row, col + 2)
  | UL => (row + 1, col + 1)
  | UR => (row + 1, col - 1)

/-- The cell two steps from `(row, col)` along `dir`: the cell that `jump` sets to USED
(the landing cell). -/
def landingCell (row col : Int) : Direction → Int × Int
  | R => (row, col - 4)
  | DR => (row - 2, col - 2)
  | DL => (row - 2, col + 2)
  | L => (row, col + 4)
  | UL => (row + 2, col + 2)
  | UR => (row + 2, col - 2)

/-- Number of cells of the 5x11 array holding the value `v`. -/
def countCells (board : Board) (v : Peg) : Nat := board.cells.count v

/-- A legal jump: source, jumped-over and landing cell are inside the grid, source and
jumped-over cell are Occupied (`USED`), the landing cell is Empty. -/
def legalJump (board : Board) (row col : Int) (dir : Direction) : Prop :=
  inGrid row col ∧
  inGrid (jumpedCell row col dir).1 (jumpedCell row col dir).2 ∧
  inGrid (landingCell row col dir).1 (landingCell row col dir).2 ∧
  board.get row col = USED ∧
  board.get (jumpedCell row col dir).1 (jumpedCell row col dir).2 = USED ∧
  board.get (landingCell row col dir).1 (landingCell row col dir).2 = EMPTY

instance (board : Board) (row col : Int) (dir : Direction) :
    Decidable (legalJump board row col dir) := by
  unfold legalJump; infer_instance

/-- The 15-hole triangular layout: a cell is padding (`UNUSED`) exactly where the board
literal of `main` has padding, so the 40 padding cells are `UNUSED` and each of the 15
playable cells is `USED` or `EMPTY`. -/
def triangular (board : Board) : Prop :=
  ∀ row ∈ rowLoop, ∀ col ∈ colLoop,
    (board.get row col = UNUSED ↔ initialBoard.get row col = UNUSED)

instance (board : Board) : Decidable (triangular board) := by
  unfold triangular; infer_instance

/-- A run of the search: every move is taken from the queue that `findValidMoves` builds
for the board it is applied to, no board before the last has 14 EMPTY cells, and the
last board has 14 EMPTY cells. -/
def winningRun : Board → List choice → Bool
  | board, [] => decide ((findValidMoves board).1 = 14)
  | board, m :: ms =>
    decide ((findValidMoves board).1 ≠ 14) && decide (m ∈ (findValidMoves board).2) &&
      match Direction.ofInt m.2 with
      | none => false
      | some d => winningRun (jump board m.1.1 m.1.2 d) ms

/-- The run that a depth-first search in queue order finds first: at every board the
move taken is preceded in the queue of `findValidMoves` only by moves from which no
winning run exists. -/
def firstRun : Board → List choice → Prop
  | board, [] => (findValidMoves board).1 = 14
  | board, m :: ms =>
    (findValidMoves board).1 ≠ 14 ∧
    ∃ d, Direction.ofInt m.2 = some d ∧
      (∃ pre post, (findValidMoves board).2 = pre ++ m :: post ∧
        ∀ m' ∈ pre, ∀ d', Direction.ofInt m'.2 = some d' →
          ∀ p, winningRun (jump board m'.1.1 m'.1.2 d') p = false) ∧
      firstRun (jump board m.1.1 m.1.2 d) ms

/-- The statement proved about `solveRest (solve fuel)` by induction on `fuel`. -/
def RestSpec (fuel : Nat) : Prop :=
  ∀ (b : Board) (h : Moves), countCells b USED ≤ fuel →
    ∃ s h', solveRest (solve fuel) b h = some (s, b, h') ∧
      (s = true → ∃ path, h' = path.reverse ++ h ∧ firstRun b path) ∧
      (s = false → h' = h ∧ ∀ path, winningRun b path = false)

/-- Apply the moves of a list one after another with `jump`, oldest first, checking that
each one is a legal jump on the board it is applied to; `none` as soon as one is not. -/
def replay : Board → List choice → Option Board
  | board, [] => some board
  | board, m :: ms =>
    match Direction.ofInt m.2 with
    | none => none
    | some d =>
      if legalJump board m.1.1 m.1.2 d then replay (jump board m.1.1 m.1.2 d) ms else none

/-! ## Concrete boards and move lists used as test inputs -/

/-- A triangular board with a single peg, at row 0, column 5. -/
def onePegBoard : Board := Board.ofList
  [UNUSED, UNUSED, UNUSED, UNUSED, UNUSED, USED, UNUSED, UNUSED, UNUSED, UNUSED, UNUSED,
   UNUSED, UNUSED, UNUSED, UNUSED, EMPTY, UNUSED, EMPTY, UNUSED, UNUSED, UNUSED, UNUSED,
   UNUSED, UNUSED, UNUSED, EMPTY, UNUSED, EMPTY, UNUSED, EMPTY, UNUSED, UNUSED, UNUSED,
   UNUSED, UNUSED, EMPTY, UNUSED, EMPTY, UNUSED, EMPTY, UNUSED, EMPTY, UNUSED, UNUSED,
   UNUSED, EMPTY, UNUSED, EMPTY, UNUSED, EMPTY, UNUSED, EMPTY, UNUSED, EMPTY, UNUSED]
  (by decide)

/-- A triangular board with two pegs that cannot jump: row 0, column 5 and row 4, column 1. -/
def stuckBoard : Board := Board.ofList
  [UNUSED, UNUSED, UNUSED, UNUSED, UNUSED, USED, UNUSED, UNUSED, UNUSED, UNUSED, UNUSED,
   UNUSED, UNUSED, UNUSED, UNUSED, EMPTY, UNUSED, EMPTY, UNUSED, UNUSED, UNUSED, UNUSED,
   UNUSED, UNUSED, UNUSED, EMPTY, UNUSED, EMPTY, UNUSED, EMPTY, UNUSED, UNUSED, UNUSED,
   UNUSED, UNUSED, EMPTY, UNUSED, EMPTY, UNUSED, EMPTY, UNUSED, EMPTY, UNUSED, UNUSED,
   UNUSED, USED, UNUSED, EMPTY, UNUSED, EMPTY, UNUSED, EMPTY, UNUSED, EMPTY, UNUSED]
  (by decide)

/-- A triangular board with two adjacent pegs, at row 4, columns 1 and 3. -/
def twoPegBoard : Board := Board.ofList
  [UNUSED, UNUSED, UNUSED, UNUSED, UNUSED, EMPTY, UNUSED, UNUSED, UNUSED, UNUSED, UNUSED,
   UNUSED, UNUSED, UNUSED, UNUSED, EMPTY, UNUSED, EMPTY, UNUSED, UNUSED, UNUSED, UNUSED,
   UNUSED, UNUSED, UNUSED, EMPTY, UNUSED, EMPTY, UNUSED, EMPTY, UNUSED, UNUSED, UNUSED,
   UNUSED, UNUSED, EMPTY, UNUSED, EMPTY, UNUSED, EMPTY, UNUSED, EMPTY, UNUSED, UNUSED,
   UNUSED, USED, UNUSED, USED, UNUSED, EMPTY, UNUSED, EMPTY, UNUSED, EMPTY, UNUSED]
  (by decide)

/-- Thirteen moves, oldest first, that solve the board literal of `main`. -/
def samplePath : List choice :=
  [((4, 9), 0), ((4, 3), 3), ((2, 5), 5), ((3, 8), 0), ((4, 3), 2), ((1, 4), 4), ((3, 2), 2),
   ((0, 5), 5), ((1, 6), 4), ((3, 8), 0), ((2, 3), 4), ((4, 7), 0), ((4, 1), 3)]

/-! ## Notions for the enumeration order and the cells accessed -/

/-- The first candidate cell of `validMove`: one step from the EMPTY cell
`(emptyPegRow, emptyPegCol)` towards the peg that would jump (the cell whose content
`validMove` compares first). -/
def nearCell (emptyPegRow emptyPegCol : Int) : Direction → Int × Int
  | R => (emptyPegRow, emptyPegCol + 2)
  | DR => (emptyPegRow + 1, emptyPegCol + 1)
  | DL => (emptyPegRow + 1, emptyPegCol - 1)
  | L => (emptyPegRow, emptyPegCol - 2)
  | UL => (emptyPegRow - 1, emptyPegCol - 1)
  | UR => (emptyPegRow - 1, emptyPegCol + 1)

/-- The second candidate cell of `validMove`: two steps from the EMPTY cell, the cell
that `validMove` yields in `legalMoveRow`, `legalMoveCol`. -/
def farCell (emptyPegRow emptyPegCol : Int) : Direction → Int × Int
  | R => (emptyPegRow, emptyPegCol + 4)
  | DR => (emptyPegRow + 2, emptyPegCol + 2)
  | DL => (emptyPegRow + 2, emptyPegCol - 2)
  | L => (emptyPegRow, emptyPegCol - 4)
  | UL => (emptyPegRow - 2, emptyPegCol - 2)
  | UR => (emptyPegRow - 2, emptyPegCol + 2)

/-- The cell a queue entry lands on together with its direction value:
`(landing row, landing column, direction)`. -/
def landingKey (m : choice) : Int × Int × Int :=
  match Direction.ofInt m.2 with
  | some d => ((landingCell m.1.1 m.1.2 d).1, (landingCell m.1.1 m.1.2 d).2, m.2)
  | none => (m.1.1, m.1.2, m.2)

/-- Row-major order of the landing cells, then the order of the direction values
(`R` < `DR` < `DL` < `L` < `UL` < `UR`). -/
def keyBefore (a b : Int × Int × Int) : Prop :=
  a.1 < b.1 ∨ (a.1 = b.1 ∧ (a.2.1 < b.2.1 ∨ (a.2.1 = b.2.1 ∧ a.2.2 < b.2.2)))

instance (a b : Int × Int × Int) : Decidable (keyBefore a b) := by
  unfold keyBefore; infer_instance

/-- A board off the triangular layout: row 0 has an EMPTY cell in column 6 and pegs in
columns 8 and 10, every other cell is padding. -/
def edgeBoard : Board := Board.ofList
  [UNUSED, UNUSED, UNUSED, UNUSED, UNUSED, UNUSED, EMPTY, UNUSED, USED, UNUSED, USED,
   UNUSED, UNUSED, UNUSED, UNUSED, UNUSED, UNUSED, UNUSED, UNUSED, UNUSED, UNUSED, UNUSED,
   UNUSED, UNUSED, UNUSED, UNUSED, UNUSED, UNUSED, UNUSED, UNUSED, UNUSED, UNUSED, UNUSED,
   UNUSED, UNUSED, UNUSED, UNUSED, UNUSED, UNUSED, UNUSED, UNUSED, UNUSED, UNUSED, UNUSED,
   UNUSED, UNUSED, UNUSED, UNUSED, UNUSED, UNUSED, UNUSED, UNUSED, UNUSED, UNUSED, UNUSED]
  (by decide)

/-- The board the search is at after taking the moves of a list, oldest first, each one
from the queue that `findValidMoves` builds for the board it is applied to; `none` when a
move is not in that queue. -/
def searchBoard : Board → List choice → Option Board
  | board, [] => some board
  | board, m :: ms =>
    if m ∈ (findValidMoves board).2 then
      match Direction.ofInt m.2 with
      | none => none
      | some d => searchBoard (jump board m.1.1 m.1.2 d) ms
    else none

/-- The index pairs of the `board[..][..]` expressions that `validMove` evaluates for
direction `i` at `(emptyPegRow, emptyPegCol)`: none when the bounds check returns false,
otherwise the two compared cells (the second comparison is skipped by `&&` when the
first fails; its cell is listed all the same). -/
def validMoveReads (i : Direction) (emptyPegRow emptyPegCol : Int) : List (Int × Int) :=
  match i with
  | R =>
    if emptyPegCol + 4 > 9 then []
    else [(emptyPegRow, emptyPegCol + 2), (emptyPegRow, emptyPegCol + 4)]
  | DR =>
    if emptyPegRow + 2 > 4 ∨ emptyPegCol + 2 > 9 then []
    else [(emptyPegRow + 1, emptyPegCol + 1), (emptyPegRow + 2, emptyPegCol + 2)]
  | DL =>
    if emptyPegRow + 2 > 4 ∨ emptyPegCol - 2 < 1 then []
    else [(emptyPegRow + 1, emptyPegCol - 1), (emptyPegRow + 2, emptyPegCol - 2)]
  | L =>
    if emptyPegCol - 4 < 1 then []
    else [(emptyPegRow, emptyPegCol - 2), (emptyPegRow, emptyPegCol - 4)]
  | UL =>
    if emptyPegRow - 2 < 0 ∨ emptyPegCol - 2 < 1 then []
    else [(emptyPegRow - 1, emptyPegCol - 1), (emptyPegRow - 2, emptyPegCol - 2)]
  | UR =>
    if emptyPegRow - 2 < 0 ∨ emptyPegCol + 2 > 9 then []
    else [(emptyPegRow - 1, emptyPegCol + 1), (emptyPegRow - 2, emptyPegCol + 2)]

/-- The index pairs that `jump` writes, in the order of its three assignments, each with
the value written. -/
def jumpWrites (row col : Int) (dir : Direction) : List ((Int × Int) × Peg) :=
  match dir with
  | R => [((row, col), EMPTY), ((row, col - 2), EMPTY), ((row, col - 4), USED)]
  | DR => [((row, col), EMPTY), ((row - 1, col - 1), EMPTY), ((row - 2, col - 2), USED)]
  | DL => [((row, col), EMPTY), ((row - 1, col + 1), EMPTY), ((row - 2, col + 2), USED)]
  | L => [((row, col), EMPTY), ((row, col + 2), EMPTY), ((row, col + 4), USED)]
  | UL => [((row, col), EMPTY), ((row + 1, col + 1), EMPTY), ((row + 2, col + 2), USED)]
  | UR => [((row, col), EMPTY), ((row + 1, col - 1), EMPTY), ((row + 2, col - 2), USED)]

/-- The index pairs that `undo` writes, in the order of its three assignments, each with
the value written. -/
def undoWrites (row col : Int) (dir : Direction) : List ((Int × Int) × Peg) :=
  match dir with
  | R => [((row, col), USED), ((row, col - 2), USED), ((row, col - 4), EMPTY)]
  | DR => [((row, col), USED), ((row - 1, col - 1), USED), ((row - 2, col - 2), EMPTY)]
  | DL => [((row, col), USED), ((row - 1, col + 1), USED), ((row - 2, col + 2), EMPTY)]
  | L => [((row, col), USED), ((row, col + 2), USED), ((row, col + 4), EMPTY)]
  | UL => [((row, col), USED), ((row + 1, col + 1), USED), ((row + 2, col + 2), EMPTY)]
  | UR => [((row, col), USED), ((row + 1, col - 1), USED), ((row + 2, col - 2), EMPTY)]

/-- Perform a list of writes on a board, first to last. -/
def applyWrites (board : Board) (writes : List ((Int × Int) × Peg)) : Board :=
  writes.foldl (fun b w => b.set w.1.1 w.1.2 w.2) board

/-- A triangular board with three pegs: row 0, column 5 and row 4, columns 1 and 3. -/
def threePegBoard : Board := Board.ofList
  [UNUSED, UNUSED, UNUSED, UNUSED, UNUSED, USED, UNUSED, UNUSED, UNUSED, UNUSED, UNUSED,
   UNUSED, UNUSED, UNUSED, UNUSED, EMPTY, UNUSED, EMPTY, UNUSED, UNUSED, UNUSED, UNUSED,
   UNUSED, UNUSED, UNUSED, EMPTY, UNUSED, EMPTY, UNUSED, EMPTY, UNUSED, UNUSED, UNUSED,
   UNUSED, UNUSED, EMPTY, UNUSED, EMPTY, UNUSED, EMPTY, UNUSED, EMPTY, UNUSED, UNUSED,
   UNUSED, USED, UNUSED, USED, UNUSED, EMPTY, UNUSED, EMPTY, UNUSED, EMPTY, UNUSED]
  (by decide)

/-! ## Depth-first order of runs -/

/-- Position of a move in a queue (the length of the queue when it is not there). -/
def rank (m : choice) : List choice → Nat
  | [] => 0
  | x :: xs => if x = m then 0 else rank m xs + 1

/-- Lexicographic comparison `p ≤ q` of two move sequences started on `board`: at the
first step where they differ, the move of `p` stands before the move of `q` in the queue
that `findValidMoves` builds for the board reached so far. -/
def dfsLe : Board → List choice → List choice → Bool
  | _, [], _ => true
  | _, _ :: _, [] => false
  | board, m :: ms, m' :: ms' =>
    if m = m' then
      match Direction.ofInt m.2 with
      | none => true
      | some d => dfsLe (jump board m.1.1 m.1.2 d) ms ms'
    else decide (rank m (findValidMoves board).2 < rank m' (findValidMoves board).2)

/-- A board off the triangular layout with a peg in column 10: the queue entry tried
first leads to a board from which only a jump out of column 10 wins. -/
def detourBoard : Board := Board.ofList
  [UNUSED, UNUSED, UNUSED, UNUSED, UNUSED, UNUSED, EMPTY, UNUSED, USED, UNUSED, USED,
   EMPTY, EMPTY, EMPTY, UNUSED, UNUSED, UNUSED, UNUSED, UNUSED, UNUSED, EMPTY, EMPTY,
   UNUSED, UNUSED, UNUSED, UNUSED, EMPTY, UNUSED, UNUSED, UNUSED, UNUSED, UNUSED, UNUSED,
   UNUSED, USED, UNUSED, EMPTY, UNUSED, USED, UNUSED, USED, UNUSED, UNUSED, UNUSED,
   EMPTY, EMPTY, UNUSED, UNUSED, UNUSED, UNUSED, USED, UNUSED, UNUSED, EMPTY, EMPTY]
  (by decide)

/-! ## The output of `main` -/

/-- The line break written by `cout << endl`. -/
def endl : Char := Char.ofNat 10

/-- The nested loops with which `main` prints a board (they occur twice in `main`, for
the initial board and after each jump): per cell a space for UNUSED, `X` for EMPTY, `O`
for USED, and a line break after each row. -/
def printBoard (board : Board) : List Char :=
  rowLoop.flatMap fun r =>
    (colLoop.flatMap fun c =>
      (if board.get r c = UNUSED then [' '] else []) ++
      (if board.get r c = EMPTY then ['X'] else []) ++
      (if board.get r c = USED then ['O'] else [])) ++ [endl]

/-- The loop of `main` that pops every element of `history` and pushes it onto
`orderedHistory`. -/
def reverseOnto : Moves → Moves → Moves
  | [], orderedHistory => orderedHistory
  | top :: history, orderedHistory => reverseOnto history (top :: orderedHistory)

/-- The loop `while(!orderedHistory.empty())` of `main`: jump, print the board, print an
empty line, pop.  Returns the text written (`none` when `jump` reaches `default:`). -/
def printSteps : Board → Moves → Option (List Char)
  | _, [] => some []
  | board, top :: orderedHistory =>
    match Direction.ofInt top.2 with
    | none => none
    | some d =>
      match printSteps (jump board top.1.1 top.1.2 d) orderedHistory with
      | none => none
      | some out => some (printBoard (jump board top.1.1 top.1.2 d) ++ [endl] ++ out)

/-- Source: `int main()` with the board literal replaced by `board`; the result is the
text written to `cout` (`none` when the call of `solve` does not return). -/
def mainOn (board : Board) (fuel : Nat) : Option (List Char) :=
  match solve fuel board [] (-1) (-1) (-1) with
  | none => none
  | some (_, board, history) =>
    if history.length > 0 then
      match printSteps board (reverseOnto history []) with
      | none => none
      | some out => some (printBoard board ++ out)
    else some ("No solution found".toList ++ [endl])

/-- Source: `int main()`. -/
def main (fuel : Nat) : Option (List Char) := mainOn initialBoard fuel

/-- The character that stands for a cell state in a frame. -/
def cellChar : Peg → Char
  | UNUSED => ' '
  | EMPTY => 'X'
  | USED => 'O'

/-- A frame: 5 lines of 11 characters, each line ended by a line break. -/
def frameText (board : Board) : List Char :=
  rowLoop.flatMap fun r => (colLoop.map fun c => cellChar (board.get r c)) ++ [endl]

/-- The frames of a solution: the initial board, then the board after each move, in
start-to-finish order. -/
def frames : Board → List choice → List (List Char)
  | board, [] => [frameText board]
  | board, m :: ms =>
    frameText board ::
      match Direction.ofInt m.2 with
      | none => []
      | some d => frames (jump board m.1.1 m.1.2 d) ms

/-- Frames laid out with a blank line between every two consecutive frames. -/
def blankLineSeparated : List (List Char) → List Char
  | [] => []
  | [f] => f
  | f :: g :: rest => f ++ [endl] ++ blankLineSeparated (g :: rest)

/-- Frames laid out as `main` writes them: the first frame, then every further frame
followed by a blank line. -/
def writtenLayout : List (List Char) → List Char
  | [] => []
  | f :: rest => f ++ rest.flatMap fun g => g ++ [endl]

/-- A path the search can have on its history while it runs: every move is taken from
the queue that `findValidMoves` builds for the board it is applied to, and no board
before the last has 14 EMPTY cells (on such a board `solve` returns at once). -/
def searchPath : Board → List choice → Bool
  | _, [] => true
  | board, m :: ms =>
    decide ((findValidMoves board).1 ≠ 14) && decide (m ∈ (findValidMoves board).2) &&
      match Direction.ofInt m.2 with
      | none => false
      | some d => searchPath (jump board m.1.1 m.1.2 d) ms

/-! ## Basic facts about boards -/

theorem Board.ext_cells {a b : Board} (h : a.cells = b.cells) : a = b := by
  cases a; cases b; simp_all

theorem inGrid_index {row col : Int} (h : inGrid row col) : (row * 11 + col).toNat < 55 := by
  unfold inGrid at h; omega

theorem index_inj {r c r' c' : Int} (h : inGrid r c) (h' : inGrid r' c')
    (e : (r * 11 + c).toNat = (r' * 11 + c').toNat) : r = r' ∧ c = c' := by
  unfold inGrid at h h'; omega

theorem Board.get_set_eq (b : Board) {row col : Int} (v : Peg) (h : inGrid row col) :
    (b.set row col v).get row col = v := by
  have hi := inGrid_index h
  simp [Board.get, Board.set, h, List.getD_eq_getElem?_getD, b.size, hi]

theorem Board.get_set_ne (b : Board) {row col row' col' : Int} (v : Peg)
    (h : ¬ (row' = row ∧ col' = col)) :
    (b.set row col v).get row' col' = b.get row' col' := by
  unfold Board.get Board.set
  by_cases hg : inGrid row col
  · by_cases hg' : inGrid row' col'
    · have hne : (row * 11 + col).toNat ≠ (row' * 11 + col').toNat := by
        intro e
        have := index_inj hg hg' e
        exact h ⟨this.1.symm, this.2.symm⟩
      simp [hg, hg', List.getD_eq_getElem?_getD, List.getElem?_set_ne hne]
    · simp [hg']
  · simp [hg]

theorem Board.ext_get {a b : Board}
    (h : ∀ row col, inGrid row col → a.get row col = b.get row col) : a = b := by
  apply Board.ext_cells
  apply List.ext_getElem (by rw [a.size, b.size])
  intro n h1 h2
  have hn : n < 55 := by rw [a.size] at h1; exact h1
  have hg : inGrid ((n / 11 : Nat) : Int) ((n % 11 : Nat) : Int) := by
    unfold inGrid; omega
  have e := h _ _ hg
  have hidx : (((n / 11 : Nat) : Int) * 11 + ((n % 11 : Nat) : Int)).toNat = n := by omega
  simp only [Board.get, hg, if_true, hidx, List.getD_eq_getElem?_getD] at e
  rw [List.getElem?_eq_getElem h1, List.getElem?_eq_getElem h2] at e
  simpa using e

theorem countCells_set (b : Board) {row col : Int} (h : inGrid row col) (w v : Peg) :
    countCells (b.set row col w) v + (if b.get row col = v then 1 else 0)
      = countCells b v + (if w = v then 1 else 0) := by
  have hi := inGrid_index h
  have hlt : (row * 11 + col).toNat < b.cells.length := by rw [b.size]; exact hi
  have hle := List.boole_getElem_le_countP (fun x => x == v) b.cells _ hlt
  simp only [countCells, Board.set, Board.get, h, if_true, List.count_set _ _ _ _ hlt,
    List.getD_eq_getElem?_getD, List.getElem?_eq_getElem hlt, Option.getD_some,
    List.count_eq_countP] at *
  simp only [beq_iff_eq] at hle ⊢
  omega

/-! ## `jump` and `undo` -/

theorem jump_eq (b : Board) (row col : Int) (d : Direction) :
    jump b row col d =
      ((b.set row col EMPTY).set (jumpedCell row col d).1 (jumpedCell row col d).2 EMPTY).set
        (landingCell row col d).1 (landingCell row col d).2 USED := by
  cases d <;> rfl

theorem undo_eq (b : Board) (row col : Int) (d : Direction) :
    undo b row col d =
      ((b.set row col USED).set (jumpedCell row col d).1 (jumpedCell row col d).2 USED).set
        (landingCell row col d).1 (landingCell row col d).2 EMPTY := by
  cases d <;> rfl

theorem cells_distinct (row col : Int) (d : Direction) :
    ¬ ((jumpedCell row col d).1 = row ∧ (jumpedCell row col d).2 = col) ∧
    ¬ ((landingCell row col d).1 = row ∧ (landingCell row col d).2 = col) ∧
    ¬ ((landingCell row col d).1 = (jumpedCell row col d).1 ∧
        (landingCell row col d).2 = (jumpedCell row col d).2) := by
  cases d <;> simp [jumpedCell, landingCell]

theorem jump_get_source (b : Board) (row col : Int) (d : Direction) (hs : inGrid row col) :
    (jump b row col d).get row col = EMPTY := by
  obtain ⟨h1, h2, h3⟩ := cells_distinct row col d
  rw [jump_eq, Board.get_set_ne _ _ (fun h => h2 ⟨h.1.symm, h.2.symm⟩),
    Board.get_set_ne _ _ (fun h => h1 ⟨h.1.symm, h.2.symm⟩), Board.get_set_eq _ _ hs]

theorem jump_get_jumped (b : Board) (row col : Int) (d : Direction)
    (hm : inGrid (jumpedCell row col d).1 (jumpedCell row col d).2) :
    (jump b row col d).get (jumpedCell row col d).1 (jumpedCell row col d).2 = EMPTY := by
  obtain ⟨h1, h2, h3⟩ := cells_distinct row col d
  rw [jump_eq, Board.get_set_ne _ _ (fun h => h3 ⟨h.1.symm, h.2.symm⟩), Board.get_set_eq _ _ hm]

theorem jump_get_landing (b : Board) (row col : Int) (d : Direction)
    (hl : inGrid (landingCell row col d).1 (landingCell row col d).2) :
    (jump b row col d).get (landingCell row col d).1 (landingCell row col d).2 = USED := by
  rw [jump_eq, Board.get_set_eq _ _ hl]

theorem jump_get_other (b : Board) (row col : Int) (d : Direction) (r c : Int)
    (h1 : ¬ (r = row ∧ c = col))
    (h2 : ¬ (r = (jumpedCell row col d).1 ∧ c = (jumpedCell row col d).2))
    (h3 : ¬ (r = (landingCell row col d).1 ∧ c = (landingCell row col d).2)) :
    (jump b row col d).get r c = b.get r c := by
  rw [jump_eq, Board.get_set_ne _ _ h3, Board.get_set_ne _ _ h2, Board.get_set_ne _ _ h1]

theorem undo_jump (b : Board) (row col : Int) (d : Direction) (h : legalJump b row col d) :
    undo (jump b row col d) row col d = b := by
  obtain ⟨hs, hm, hl, vs, vm, vl⟩ := h
  obtain ⟨h1, h2, h3⟩ := cells_distinct row col d
  apply Board.ext_get
  intro r c _
  rw [undo_eq]
  by_cases e3 : r = (landingCell row col d).1 ∧ c = (landingCell row col d).2
  · rw [e3.1, e3.2, Board.get_set_eq _ _ hl, vl]
  · rw [Board.get_set_ne _ _ e3]
    by_cases e2 : r = (jumpedCell row col d).1 ∧ c = (jumpedCell row col d).2
    · rw [e2.1, e2.2, Board.get_set_eq _ _ hm, vm]
    · rw [Board.get_set_ne _ _ e2]
      by_cases e1 : r = row ∧ c = col
      · rw [e1.1, e1.2, Board.get_set_eq _ _ hs, vs]
      · rw [Board.get_set_ne _ _ e1, jump_get_other b row col d r c e1 e2 e3]

theorem countCells_jump (b : Board) (row col : Int) (d : Direction) (h : legalJump b row col d) :
    countCells (jump b row col d) USED + 1 = countCells b USED ∧
    countCells (jump b row col d) EMPTY = countCells b EMPTY + 1 ∧
    countCells (jump b row col d) UNUSED = countCells b UNUSED := by
  obtain ⟨hs, hm, hl, vs, vm, vl⟩ := h
  obtain ⟨h1, h2, h3⟩ := cells_distinct row col d
  have g2 : (b.set row col EMPTY).get (jumpedCell row col d).1 (jumpedCell row col d).2 = USED := by
    rw [Board.get_set_ne _ _ h1, vm]
  have g3 : ((b.set row col EMPTY).set (jumpedCell row col d).1 (jumpedCell row col d).2 EMPTY).get
      (landingCell row col d).1 (landingCell row col d).2 = EMPTY := by
    rw [Board.get_set_ne _ _ h3, Board.get_set_ne _ _ h2, vl]
  rw [jump_eq]
  refine ⟨?_, ?_, ?_⟩
  · have a1 := countCells_set b hs EMPTY USED
    have a2 := countCells_set (b.set row col EMPTY) hm EMPTY USED
    have a3 := countCells_set ((b.set row col EMPTY).set (jumpedCell row col d).1
      (jumpedCell row col d).2 EMPTY) hl USED USED
    rw [vs] at a1; rw [g2] at a2; rw [g3] at a3
    simp at a1 a2 a3
    omega
  · have a1 := countCells_set b hs EMPTY EMPTY
    have a2 := countCells_set (b.set row col EMPTY) hm EMPTY EMPTY
    have a3 := countCells_set ((b.set row col EMPTY).set (jumpedCell row col d).1
      (jumpedCell row col d).2 EMPTY) hl USED EMPTY
    rw [vs] at a1; rw [g2] at a2; rw [g3] at a3
    simp at a1 a2 a3
    omega
  · have a1 := countCells_set b hs EMPTY UNUSED
    have a2 := countCells_set (b.set row col EMPTY) hm EMPTY UNUSED
    have a3 := countCells_set ((b.set row col EMPTY).set (jumpedCell row col d).1
      (jumpedCell row col d).2 EMPTY) hl USED UNUSED
    rw [vs] at a1; rw [g2] at a2; rw [g3] at a3
    simp at a1 a2 a3
    omega


/-! ## `validMove` and `findValidMoves` -/

theorem validMove_true (b : Board) (i : Direction) (er ec : Int) (hg : inGrid er ec)
    (he : b.get er ec = EMPTY) (h : (validMove b i er ec).1 = true) :
    landingCell (validMove b i er ec).2.1 (validMove b i er ec).2.2 i = (er, ec) ∧
    legalJump b (validMove b i er ec).2.1 (validMove b i er ec).2.2 i ∧
    1 ≤ (validMove b i er ec).2.2 ∧ (validMove b i er ec).2.2 ≤ 9 := by
  unfold inGrid at hg
  cases i <;> simp only [validMove] at h ⊢ <;> split at h <;>
    simp only [Bool.and_eq_true, decide_eq_true_eq, Bool.false_eq_true] at h <;>
    rename_i hb <;> simp only [hb, if_false] <;>
    simp only [legalJump, jumpedCell, landingCell, inGrid] <;>
    simp only [add_sub_cancel_right, sub_add_cancel, Int.add_sub_cancel, Int.sub_add_cancel,
      show ec + 4 - 2 = ec + 2 by omega, show ec + 2 - 1 = ec + 1 by omega,
      show er + 2 - 1 = er + 1 by omega, show ec - 2 + 1 = ec - 1 by omega,
      show ec - 4 + 2 = ec - 2 by omega, show ec - 4 + 4 = ec by omega,
      show er - 2 + 1 = er - 1 by omega, show er - 2 + 2 = er by omega,
      show ec - 2 + 2 = ec by omega,
      show ec + 2 - 2 = ec by omega, show er + 2 - 2 = er by omega,
      show ec + 4 - 4 = ec by omega, h.1, h.2, he, true_and, and_true] <;>
    omega

theorem validMove_of_legal (b : Board) (i : Direction) (sr sc : Int)
    (h : legalJump b sr sc i) (h1 : 1 ≤ sc) (h9 : sc ≤ 9) :
    validMove b i (landingCell sr sc i).1 (landingCell sr sc i).2 = (true, sr, sc) := by
  obtain ⟨hs, hm, hl, vs, vm, vl⟩ := h
  unfold inGrid at hs hm hl
  cases i <;> simp only [jumpedCell, landingCell] at hm hl vm vl ⊢ <;>
    simp only [validMove] <;> rw [if_neg (by omega)] <;>
    simp only [show sc - 4 + 2 = sc - 2 by omega, show sc - 4 + 4 = sc by omega,
      show sr - 2 + 1 = sr - 1 by omega, show sr - 2 + 2 = sr by omega,
      show sc - 2 + 1 = sc - 1 by omega, show sc - 2 + 2 = sc by omega,
      show sc + 2 - 1 = sc + 1 by omega, show sc + 2 - 2 = sc by omega,
      show sc + 4 - 2 = sc + 2 by omega, show sc + 4 - 4 = sc by omega,
      show sr + 2 - 1 = sr + 1 by omega, show sr + 2 - 2 = sr by omega,
      vs, vm, decide_True, Bool.and_self]


theorem foldl_pair_acc {α β : Type} (n : α → Nat) (g : α → List β) (l : List α)
    (acc : Nat × List β) :
    l.foldl (fun acc a => (acc.1 + n a, acc.2 ++ g a)) acc
      = (acc.1 + (l.map n).sum, acc.2 ++ l.flatMap g) := by
  induction l generalizing acc with
  | nil => simp
  | cons a l ih => simp [ih, Nat.add_assoc]

theorem foldl_push_acc {α β : Type} (g : α → List β) (l : List α) (q : List β) :
    l.foldl (fun q a => q ++ g a) q = q ++ l.flatMap g := by
  induction l generalizing q with
  | nil => simp
  | cons a l ih => simp [ih]

/-- The moves pushed for one EMPTY cell. -/
theorem pushValid_eq (b : Board) (row col : Int) (q : ValidMoves) :
    pushValid b row col q = q ++ directionLoop.flatMap (fun i =>
      if (validMove b i row col).1 = true
      then [(((validMove b i row col).2.1, (validMove b i row col).2.2), i.toInt)] else []) := by
  unfold pushValid
  rw [← foldl_push_acc]
  congr 1
  funext q i
  by_cases h : (validMove b i row col).1 = true <;> simp [h]

theorem findValidMoves_eq (b : Board) :
    findValidMoves b =
      ((rowLoop.map fun row =>
          (colLoop.map fun col => if b.get row col = EMPTY then 1 else 0).sum).sum,
       rowLoop.flatMap fun row => colLoop.flatMap fun col =>
          if b.get row col = EMPTY then pushValid b row col [] else []) := by
  unfold findValidMoves
  have inner : ∀ (row : Int) (acc : Nat × ValidMoves),
      colLoop.foldl (fun acc col =>
          if b.get row col = EMPTY then (acc.1 + 1, pushValid b row col acc.2) else acc) acc
        = (acc.1 + (colLoop.map fun col => if b.get row col = EMPTY then 1 else 0).sum,
           acc.2 ++ colLoop.flatMap fun col =>
             if b.get row col = EMPTY then pushValid b row col [] else []) := by
    intro row acc
    rw [← foldl_pair_acc]
    congr 1
    funext acc col
    by_cases h : b.get row col = EMPTY
    · simp only [h, if_true]
      rw [pushValid_eq b row col acc.2, pushValid_eq b row col []]
      simp
    · simp [h]
  simp only [inner]
  rw [foldl_pair_acc]
  simp

theorem mem_rowLoop {row : Int} : row ∈ rowLoop ↔ 0 ≤ row ∧ row < 5 := by
  simp only [rowLoop, List.mem_cons, List.mem_singleton, List.mem_nil_iff, or_false]
  omega

theorem mem_colLoop {col : Int} : col ∈ colLoop ↔ 0 ≤ col ∧ col < 11 := by
  simp only [colLoop, List.mem_cons, List.mem_singleton, List.mem_nil_iff, or_false]
  omega

theorem mem_directionLoop (i : Direction) : i ∈ directionLoop := by
  cases i <;> simp [directionLoop]

theorem toInt_inj {i j : Direction} (h : i.toInt = j.toInt) : i = j := by
  cases i <;> cases j <;> simp [Direction.toInt] at h <;> rfl

theorem ofInt_toInt (i : Direction) : Direction.ofInt i.toInt = some i := by
  cases i <;> rfl

theorem ofInt_eq_some {n : Int} {d : Direction} (h : Direction.ofInt n = some d) :
    n = d.toInt := by
  unfold Direction.ofInt at h
  repeat' split at h
  all_goals first
    | (cases h; simp [Direction.toInt, *])
    | simp at h

theorem mem_pushValid (b : Board) (row col : Int) (m : choice) :
    m ∈ pushValid b row col [] ↔
      ∃ i, (validMove b i row col).1 = true ∧
        m = (((validMove b i row col).2.1, (validMove b i row col).2.2), i.toInt) := by
  rw [pushValid_eq]
  simp only [List.nil_append, List.mem_flatMap]
  constructor
  · rintro ⟨i, _, h⟩
    by_cases hv : (validMove b i row col).1 = true
    · simp only [hv, if_true, List.mem_singleton] at h
      exact ⟨i, hv, h⟩
    · simp [hv] at h
  · rintro ⟨i, hv, h⟩
    exact ⟨i, mem_directionLoop i, by simp [hv, h]⟩

/-- Membership in the queue built by `findValidMoves`, on any board. -/
theorem mem_findValidMoves (b : Board) (m : choice) :
    m ∈ (findValidMoves b).2 ↔
      ∃ d, m.2 = d.toInt ∧ legalJump b m.1.1 m.1.2 d ∧ 1 ≤ m.1.2 ∧ m.1.2 ≤ 9 := by
  rw [findValidMoves_eq]
  simp only [List.mem_flatMap]
  constructor
  · rintro ⟨row, hrow, col, hcol, h⟩
    by_cases he : b.get row col = EMPTY
    · simp only [he, if_true] at h
      obtain ⟨i, hv, rfl⟩ := (mem_pushValid b row col m).1 h
      have hg : inGrid row col := ⟨(mem_rowLoop.1 hrow).1, (mem_rowLoop.1 hrow).2,
        (mem_colLoop.1 hcol).1, (mem_colLoop.1 hcol).2⟩
      obtain ⟨_, h2, h3, h4⟩ := validMove_true b i row col hg he hv
      exact ⟨i, rfl, h2, h3, h4⟩
    · simp [he] at h
  · rintro ⟨d, hd, hl, h1, h9⟩
    obtain ⟨⟨sr, sc⟩, n⟩ := m
    simp only at hd hl h1 h9
    subst hd
    have hv := validMove_of_legal b d sr sc hl h1 h9
    obtain ⟨_, _, hlg, _, _, vl⟩ := hl
    refine ⟨(landingCell sr sc d).1, mem_rowLoop.2 ⟨hlg.1, hlg.2.1⟩,
      (landingCell sr sc d).2, mem_colLoop.2 ⟨hlg.2.2.1, hlg.2.2.2⟩, ?_⟩
    simp only [vl, if_true]
    exact (mem_pushValid b _ _ _).2 ⟨d, by rw [hv], by rw [hv]⟩


theorem list_eq_map_range (l : List Peg) :
    l = (List.range l.length).map fun i => l.getD i UNUSED := by
  apply List.ext_getElem
  · simp
  · intro n h1 h2
    simp [List.getD_eq_getElem?_getD, List.getElem?_eq_getElem h1]

/-- The cell list of a board, read back through `Board.get` in loop order. -/
theorem cells_eq_loops (b : Board) :
    b.cells = rowLoop.flatMap fun row => colLoop.map fun col => b.get row col := by
  obtain ⟨cells, h⟩ := b
  show cells = _
  conv_lhs => rw [list_eq_map_range cells, h]
  rfl

theorem count_flatMap_sum {α β : Type} [DecidableEq β] (v : β) (f : α → List β) (l : List α) :
    (l.flatMap f).count v = (l.map fun a => (f a).count v).sum := by
  induction l with
  | nil => simp
  | cons a l ih => simp [List.flatMap_cons, ih]

theorem count_map_sum {α β : Type} [DecidableEq β] (v : β) (f : α → β) (l : List α) :
    (l.map f).count v = (l.map fun a => if f a = v then 1 else 0).sum := by
  induction l with
  | nil => simp
  | cons a l ih => simp [List.count_cons, ih, Nat.add_comm]

theorem countCells_eq_sum (b : Board) (v : Peg) :
    countCells b v =
      (rowLoop.map fun row =>
        (colLoop.map fun col => if b.get row col = v then 1 else 0).sum).sum := by
  unfold countCells
  conv_lhs => rw [cells_eq_loops b]
  rw [count_flatMap_sum]
  congr 1
  apply List.map_congr_left
  intro row _
  rw [count_map_sum]

/-- The integer returned by `findValidMoves` is the number of EMPTY cells. -/
theorem findValidMoves_fst (b : Board) : (findValidMoves b).1 = countCells b EMPTY := by
  rw [findValidMoves_eq, countCells_eq_sum]

theorem countCells_total (b : Board) :
    countCells b EMPTY + countCells b USED + countCells b UNUSED = 55 := by
  have h : ∀ l : List Peg, l.count EMPTY + l.count USED + l.count UNUSED = l.length := by
    intro l
    induction l with
    | nil => rfl
    | cons a l ih => cases a <;> simp [List.count_cons] <;> omega
  unfold countCells
  rw [h, b.size]

theorem nodup_flatMap_of_inj {α β : Type} (l : List α) (f : α → List β) (hl : l.Nodup)
    (h1 : ∀ a ∈ l, (f a).Nodup)
    (h2 : ∀ a ∈ l, ∀ a' ∈ l, ∀ x, x ∈ f a → x ∈ f a' → a = a') :
    (l.flatMap f).Nodup := by
  rw [List.nodup_flatMap]
  refine ⟨h1, ?_⟩
  refine List.Pairwise.imp_of_mem ?_ hl
  intro a a' ha ha' hne
  intro x hx hx'
  exact hne (h2 a ha a' ha' x hx hx')

theorem nodup_pushValid (b : Board) (row col : Int) : (pushValid b row col []).Nodup := by
  rw [pushValid_eq, List.nil_append]
  apply nodup_flatMap_of_inj
  · decide
  · intro i _
    by_cases h : (validMove b i row col).1 = true <;> simp [h]
  · intro i _ j _ x hi hj
    by_cases h : (validMove b i row col).1 = true
    · by_cases h' : (validMove b j row col).1 = true
      · simp only [h, h', if_true, List.mem_singleton] at hi hj
        rw [hi] at hj
        exact toInt_inj (congrArg Prod.snd hj)
      · simp [h'] at hj
    · simp [h] at hi

/-- A move pushed while scanning the EMPTY cell `(row, col)` lands on that cell. -/
theorem landing_of_mem_pushValid (b : Board) (row col : Int) (hg : inGrid row col)
    (he : b.get row col = EMPTY) (m : choice) (hm : m ∈ pushValid b row col []) :
    ∃ d, m.2 = d.toInt ∧ landingCell m.1.1 m.1.2 d = (row, col) := by
  obtain ⟨i, hv, rfl⟩ := (mem_pushValid b row col m).1 hm
  exact ⟨i, rfl, (validMove_true b i row col hg he hv).1⟩

/-- No move is enqueued twice by `findValidMoves`. -/
theorem nodup_findValidMoves (b : Board) : (findValidMoves b).2.Nodup := by
  rw [findValidMoves_eq]
  have key : ∀ row ∈ rowLoop, ∀ col ∈ colLoop, ∀ m,
      m ∈ (if b.get row col = EMPTY then pushValid b row col [] else []) →
      ∃ d, m.2 = d.toInt ∧ landingCell m.1.1 m.1.2 d = (row, col) := by
    intro row hrow col hcol m hm
    by_cases he : b.get row col = EMPTY
    · simp only [he, if_true] at hm
      exact landing_of_mem_pushValid b row col
        ⟨(mem_rowLoop.1 hrow).1, (mem_rowLoop.1 hrow).2,
          (mem_colLoop.1 hcol).1, (mem_colLoop.1 hcol).2⟩ he m hm
    · simp [he] at hm
  apply nodup_flatMap_of_inj
  · decide
  · intro row hrow
    apply nodup_flatMap_of_inj
    · decide
    · intro col _
      by_cases he : b.get row col = EMPTY
      · simp only [he, if_true]; exact nodup_pushValid b row col
      · simp [he]
    · intro col hcol col' hcol' m hm hm'
      obtain ⟨d, hd, e⟩ := key row hrow col hcol m hm
      obtain ⟨d', hd', e'⟩ := key row hrow col' hcol' m hm'
      have : d = d' := toInt_inj (hd.symm.trans hd')
      subst this
      rw [e] at e'
      exact congrArg Prod.snd e'
  · intro row hrow row' hrow' m hm hm'
    obtain ⟨col, hcol, hm⟩ := List.mem_flatMap.1 hm
    obtain ⟨col', hcol', hm'⟩ := List.mem_flatMap.1 hm'
    obtain ⟨d, hd, e⟩ := key row hrow col hcol m hm
    obtain ⟨d', hd', e'⟩ := key row' hrow' col' hcol' m hm'
    have : d = d' := toInt_inj (hd.symm.trans hd')
    subst this
    rw [e] at e'
    exact congrArg Prod.fst e'


/-! ## `solve` -/

theorem solve_sentinel (fuel : Nat) (b : Board) (h : Moves) :
    solve (fuel + 1) b h (-1) (-1) (-1) = solveRest (solve fuel) b h := by
  simp [solve]

/-- What `findValidMoves` guarantees about each move it enqueues. -/
theorem found_move {b : Board} {m : choice} (hm : m ∈ (findValidMoves b).2) :
    ∃ d, Direction.ofInt m.2 = some d ∧ legalJump b m.1.1 m.1.2 d ∧
      m.1.1 ≠ -1 ∧ m.1.2 ≠ -1 ∧ m.2 ≠ -1 := by
  obtain ⟨d, hd, hl, h1, h9⟩ := (mem_findValidMoves b m).1 hm
  refine ⟨d, by rw [hd]; exact ofInt_toInt d, hl, ?_, ?_, ?_⟩
  · have := hl.1.1; omega
  · omega
  · rw [hd]; cases d <;> simp [Direction.toInt]

theorem solve_move (fuel : Nat) (b : Board) (h : Moves) {m : choice} {d : Direction}
    (hm : m ∈ (findValidMoves b).2) (hd : Direction.ofInt m.2 = some d) :
    solve (fuel + 1) b h m.1.1 m.1.2 m.2
      = solveRest (solve fuel) (jump b m.1.1 m.1.2 d) (m :: h) := by
  obtain ⟨d', hd', _, h1, h2, h3⟩ := found_move hm
  simp [solve, h1, h2, h3, hd]

theorem solveLoop_solved
    (call : Board → Moves → Int → Int → Int → Option (Bool × Board × Moves))
    (moves : ValidMoves) (b : Board) (h : Moves) :
    solveLoop call moves true b h = some (true, b, h) := by
  cases moves <;> simp [solveLoop]

theorem firstRun_winningRun : ∀ (path : List choice) (b : Board),
    firstRun b path → winningRun b path = true := by
  intro path
  induction path with
  | nil => intro b h; simpa [firstRun, winningRun] using h
  | cons m ms ih =>
    intro b h
    obtain ⟨hne, d, hd, ⟨pre, post, hq, _⟩, hrest⟩ := h
    simp only [winningRun, hd, Bool.and_eq_true, decide_eq_true_eq]
    exact ⟨⟨hne, by rw [hq]; simp⟩, ih _ hrest⟩

theorem winningRun_cons_false {b : Board} {m : choice} {ms : List choice}
    (h : ∀ d, m ∈ (findValidMoves b).2 → Direction.ofInt m.2 = some d →
      winningRun (jump b m.1.1 m.1.2 d) ms = false) :
    winningRun b (m :: ms) = false := by
  simp only [winningRun]
  by_cases hm : m ∈ (findValidMoves b).2
  · cases hd : Direction.ofInt m.2 with
    | none => simp
    | some d => simp [h d hm hd]
  · simp [hm]

theorem countCells_found {b : Board} {m : choice} {d : Direction}
    (hm : m ∈ (findValidMoves b).2) (hd : Direction.ofInt m.2 = some d) :
    countCells (jump b m.1.1 m.1.2 d) USED + 1 = countCells b USED := by
  obtain ⟨d', hd', hl, _⟩ := found_move hm
  rw [hd] at hd'
  cases hd'
  exact (countCells_jump b _ _ d hl).1

theorem solveLoop_spec (f : Nat) (b : Board) (IH : RestSpec f)
    (hcount : countCells b USED ≤ f + 1) (hne : (findValidMoves b).1 ≠ 14) :
    ∀ (moves pre : List choice) (h : Moves), (findValidMoves b).2 = pre ++ moves →
      (∀ m' ∈ pre, ∀ d', Direction.ofInt m'.2 = some d' →
        ∀ p, winningRun (jump b m'.1.1 m'.1.2 d') p = false) →
      ∃ s h', solveLoop (solve (f + 1)) moves false b h = some (s, b, h') ∧
        (s = true → ∃ m path, h' = path.reverse ++ m :: h ∧ firstRun b (m :: path)) ∧
        (s = false → h' = h ∧ ∀ m ∈ (findValidMoves b).2, ∀ d,
          Direction.ofInt m.2 = some d →
            ∀ p, winningRun (jump b m.1.1 m.1.2 d) p = false) := by
  intro moves
  induction moves with
  | nil =>
    intro pre h hq hpre
    refine ⟨false, h, by simp [solveLoop], by simp, fun _ => ⟨rfl, ?_⟩⟩
    intro m hm d hd p
    rw [hq, List.append_nil] at hm
    exact hpre m hm d hd p
  | cons m rest ih =>
    intro pre h hq hpre
    have hm : m ∈ (findValidMoves b).2 := by rw [hq]; simp
    obtain ⟨d, hd, hl, _⟩ := found_move hm
    have hc := countCells_found hm hd
    obtain ⟨s1, h1, hres, htrue, hfalse⟩ := IH (jump b m.1.1 m.1.2 d) (m :: h) (by omega)
    have hcall := solve_move f b h hm hd
    cases s1 with
    | true =>
      obtain ⟨path, hp, hfirst⟩ := htrue rfl
      refine ⟨true, h1, ?_, ?_, by simp⟩
      · simp only [solveLoop, hcall, hres, hd, Bool.false_eq_true, if_false, Bool.not_true,
          undo_jump b _ _ d hl, solveLoop_solved]
      · intro _
        exact ⟨m, path, hp, hne, d, hd, ⟨pre, rest, hq, hpre⟩, hfirst⟩
    | false =>
      obtain ⟨hh, hnone⟩ := hfalse rfl
      subst hh
      have hq' : (findValidMoves b).2 = (pre ++ [m]) ++ rest := by rw [hq]; simp
      have hpre' : ∀ m' ∈ pre ++ [m], ∀ d', Direction.ofInt m'.2 = some d' →
          ∀ p, winningRun (jump b m'.1.1 m'.1.2 d') p = false := by
        intro m' hm' d' hd' p
        rcases List.mem_append.1 hm' with hin | hin
        · exact hpre m' hin d' hd' p
        · rw [List.mem_singleton] at hin
          subst hin
          rw [hd] at hd'
          cases hd'
          exact hnone p
      obtain ⟨s, h', hres', ht, hf⟩ := ih (pre ++ [m]) h hq' hpre'
      refine ⟨s, h', ?_, ht, hf⟩
      simp only [solveLoop, hcall, hres, hd, Bool.false_eq_true, if_false, Bool.not_false,
        if_true, List.tail_cons, undo_jump b _ _ d hl, hres']

theorem solveRest_spec : ∀ fuel, RestSpec fuel := by
  intro fuel
  induction fuel with
  | zero =>
    intro b h hcount
    unfold solveRest
    by_cases h14 : (findValidMoves b).1 = 14
    · exact ⟨true, h, by simp [h14], fun _ => ⟨[], rfl, h14⟩, by simp⟩
    · cases hq : (findValidMoves b).2 with
      | nil =>
        refine ⟨false, h, by simp [h14, hq], by simp, fun _ => ⟨rfl, ?_⟩⟩
        intro path
        cases path with
        | nil => simp [winningRun, h14]
        | cons m ms => simp [winningRun, hq]
      | cons m rest =>
        have hm : m ∈ (findValidMoves b).2 := by rw [hq]; simp
        obtain ⟨d, hd, _⟩ := found_move hm
        have := countCells_found hm hd
        omega
  | succ f IH =>
    intro b h hcount
    unfold solveRest
    by_cases h14 : (findValidMoves b).1 = 14
    · exact ⟨true, h, by simp [h14], fun _ => ⟨[], rfl, h14⟩, by simp⟩
    · cases hq : (findValidMoves b).2 with
      | nil =>
        refine ⟨false, h, by simp [h14, hq], by simp, fun _ => ⟨rfl, ?_⟩⟩
        intro path
        cases path with
        | nil => simp [winningRun, h14]
        | cons m ms => simp [winningRun, hq]
      | cons m rest =>
        obtain ⟨s, h', hres, ht, hf⟩ :=
          solveLoop_spec f b IH hcount h14 (m :: rest) [] h (by simp [hq]) (by simp)
        refine ⟨s, h', by simp [h14, hq, hres], ?_, ?_⟩
        · intro hs
          obtain ⟨m', path, hp, hfirst⟩ := ht hs
          exact ⟨m' :: path, by simp [hp], hfirst⟩
        · intro hs
          obtain ⟨hh, hnone⟩ := hf hs
          refine ⟨hh, ?_⟩
          intro path
          cases path with
          | nil => simp [winningRun, h14]
          | cons m' ms =>
            exact winningRun_cons_false (fun d hm' hd => hnone m' hm' d hd ms)


/-! ## The recursion budget -/

theorem solveLoop_mono
    (call call' : Board → Moves → Int → Int → Int → Option (Bool × Board × Moves))
    (hcc : ∀ b h r c d x, call b h r c d = some x → call' b h r c d = some x) :
    ∀ (moves : ValidMoves) (s : Bool) (b : Board) (h : Moves) (x : Bool × Board × Moves),
      solveLoop call moves s b h = some x → solveLoop call' moves s b h = some x := by
  intro moves
  induction moves with
  | nil => intro s b h x hx; simpa [solveLoop] using hx
  | cons m rest ih =>
    intro s b h x hx
    cases s with
    | true => simpa [solveLoop] using hx
    | false =>
      simp only [solveLoop, Bool.false_eq_true, if_false] at hx ⊢
      cases hc : call b h m.1.1 m.1.2 m.2 with
      | none => simp [hc] at hx
      | some y =>
        obtain ⟨s1, b1, h1⟩ := y
        rw [hc] at hx
        rw [hcc _ _ _ _ _ _ hc]
        cases hd : Direction.ofInt m.2 with
        | none => simp [hd] at hx
        | some d =>
          simp only [hd] at hx ⊢
          exact ih _ _ _ _ hx

theorem solveRest_mono
    (call call' : Board → Moves → Int → Int → Int → Option (Bool × Board × Moves))
    (hcc : ∀ b h r c d x, call b h r c d = some x → call' b h r c d = some x)
    (b : Board) (h : Moves) (x : Bool × Board × Moves)
    (hx : solveRest call b h = some x) : solveRest call' b h = some x := by
  unfold solveRest at hx ⊢
  by_cases h14 : (findValidMoves b).1 = 14
  · simpa [h14] using hx
  · by_cases he : (findValidMoves b).2.isEmpty = true
    · simpa [h14, he] using hx
    · simp only [h14, he, if_false] at hx ⊢
      exact solveLoop_mono call call' hcc _ _ _ _ _ hx

theorem solve_mono_succ : ∀ (fuel : Nat) (b : Board) (h : Moves) (r c d : Int)
    (x : Bool × Board × Moves),
    solve fuel b h r c d = some x → solve (fuel + 1) b h r c d = some x := by
  intro fuel
  induction fuel with
  | zero => intro b h r c d x hx; simp [solve] at hx
  | succ f ih =>
    intro b h r c d x hx
    rw [solve] at hx ⊢
    by_cases hs : r ≠ -1 ∧ c ≠ -1 ∧ d ≠ -1
    · rw [if_pos hs] at hx ⊢
      cases hd : Direction.ofInt d with
      | none => simp [hd] at hx
      | some dd =>
        simp only [hd] at hx ⊢
        exact solveRest_mono _ _ ih _ _ _ hx
    · rw [if_neg hs] at hx ⊢
      exact solveRest_mono _ _ ih _ _ _ hx

theorem solve_mono {fuel fuel' : Nat} (hle : fuel ≤ fuel') (b : Board) (h : Moves)
    (r c d : Int) (x : Bool × Board × Moves) (hx : solve fuel b h r c d = some x) :
    solve fuel' b h r c d = some x := by
  induction hle with
  | refl => exact hx
  | step _ ih => exact solve_mono_succ _ _ _ _ _ _ _ ih

/-- The initial call returns as soon as the budget exceeds the number of pegs, and what it
returns is described by `firstRun` and `winningRun`. -/
theorem solveInitial_returns (b : Board) :
    ∃ s h, (∀ fuel, countCells b USED < fuel → solveInitial fuel b = some (s, b, h)) ∧
      (s = true → firstRun b h.reverse) ∧
      (s = false → h = [] ∧ ∀ path, winningRun b path = false) := by
  obtain ⟨s, h, hres, ht, hf⟩ := solveRest_spec (countCells b USED) b [] (Nat.le_refl _)
  refine ⟨s, h, ?_, ?_, hf⟩
  · intro fuel hfuel
    have h1 : solveInitial (countCells b USED + 1) b = some (s, b, h) := by
      unfold solveInitial
      rw [solve_sentinel]
      exact hres
    exact solve_mono hfuel _ _ _ _ _ _ h1
  · intro hs
    obtain ⟨path, hp, hfirst⟩ := ht hs
    rw [hp]
    simpa using hfirst

/-- Whatever budget the initial call returns with, the result is the one of
`solveInitial_returns`. -/
theorem solveInitial_spec {fuel : Nat} {b b' : Board} {s : Bool} {h : Moves}
    (hres : solveInitial fuel b = some (s, b', h)) :
    b' = b ∧ (s = true → firstRun b h.reverse) ∧
      (s = false → h = [] ∧ ∀ path, winningRun b path = false) := by
  obtain ⟨s0, h0, hall, ht, hf⟩ := solveInitial_returns b
  have h1 := hall (fuel + countCells b USED + 1) (by omega)
  have h2 := solve_mono (show fuel ≤ fuel + countCells b USED + 1 by omega) _ _ _ _ _ _ hres
  unfold solveInitial at h1
  rw [h1] at h2
  simp only [Option.some.injEq, Prod.mk.injEq] at h2
  obtain ⟨rfl, rfl, rfl⟩ := h2
  exact ⟨rfl, ht, hf⟩

/-! ## Runs of the search and replays with `jump` -/

theorem winningRun_replay : ∀ (path : List choice) (b : Board),
    winningRun b path = true →
      ∃ final, replay b path = some final ∧ countCells final EMPTY = 14 := by
  intro path
  induction path with
  | nil =>
    intro b h
    refine ⟨b, rfl, ?_⟩
    rw [← findValidMoves_fst]
    simpa [winningRun] using h
  | cons m ms ih =>
    intro b h
    simp only [winningRun, Bool.and_eq_true, decide_eq_true_eq] at h
    obtain ⟨⟨_, hm⟩, hrest⟩ := h
    obtain ⟨d, hd, hl, _⟩ := found_move hm
    rw [hd] at hrest
    obtain ⟨final, hrep, hcnt⟩ := ih _ hrest
    exact ⟨final, by simp [replay, hd, hl, hrep], hcnt⟩

theorem winningRun_length : ∀ (path : List choice) (b : Board),
    winningRun b path = true → path.length + countCells b EMPTY = 14 := by
  intro path
  induction path with
  | nil =>
    intro b h
    rw [← findValidMoves_fst]
    simpa [winningRun] using h
  | cons m ms ih =>
    intro b h
    simp only [winningRun, Bool.and_eq_true, decide_eq_true_eq] at h
    obtain ⟨⟨_, hm⟩, hrest⟩ := h
    obtain ⟨d, hd, hl, _⟩ := found_move hm
    rw [hd] at hrest
    have := ih _ hrest
    have hc := (countCells_jump b _ _ d hl).2.1
    simp only [List.length_cons]
    omega


/-! ## The triangular layout -/

theorem triangular_get {b : Board} (ht : triangular b) {row col : Int} (hg : inGrid row col) :
    (b.get row col = UNUSED ↔ initialBoard.get row col = UNUSED) :=
  ht row (mem_rowLoop.2 ⟨hg.1, hg.2.1⟩) col (mem_colLoop.2 ⟨hg.2.2.1, hg.2.2.2⟩)

/-- On the triangular layout a cell that is not padding lies in columns 1 to 9. -/
theorem triangular_col {b : Board} (ht : triangular b) {row col : Int} (hg : inGrid row col)
    (hv : b.get row col ≠ UNUSED) : 1 ≤ col ∧ col ≤ 9 := by
  have hi : initialBoard.get row col ≠ UNUSED := fun e => hv ((triangular_get ht hg).2 e)
  obtain ⟨h0, h4, c0, c10⟩ := hg
  by_contra hcon
  have hc : col = 0 ∨ col = 10 := by omega
  have hr : row = 0 ∨ row = 1 ∨ row = 2 ∨ row = 3 ∨ row = 4 := by omega
  rcases hc with rfl | rfl <;> rcases hr with rfl | rfl | rfl | rfl | rfl <;>
    exact hi (by decide)

theorem triangular_jump {b : Board} (ht : triangular b) {row col : Int} {d : Direction}
    (hl : legalJump b row col d) : triangular (jump b row col d) := by
  obtain ⟨hs, hm, hlg, vs, vm, vl⟩ := hl
  intro r hr c hc
  have hg : inGrid r c := ⟨(mem_rowLoop.1 hr).1, (mem_rowLoop.1 hr).2,
    (mem_colLoop.1 hc).1, (mem_colLoop.1 hc).2⟩
  rw [← triangular_get ht hg]
  by_cases e1 : r = row ∧ c = col
  · rw [e1.1, e1.2, jump_get_source b row col d hs, vs]; simp
  · by_cases e2 : r = (jumpedCell row col d).1 ∧ c = (jumpedCell row col d).2
    · rw [e2.1, e2.2, jump_get_jumped b row col d hm, vm]; simp
    · by_cases e3 : r = (landingCell row col d).1 ∧ c = (landingCell row col d).2
      · rw [e3.1, e3.2, jump_get_landing b row col d hlg, vl]; simp
      · rw [jump_get_other b row col d r c e1 e2 e3]

theorem triangular_unused {b : Board} (ht : triangular b) : countCells b UNUSED = 40 := by
  have h0 : countCells initialBoard UNUSED = 40 := by decide
  rw [← h0, countCells_eq_sum, countCells_eq_sum]
  congr 1
  apply List.map_congr_left
  intro row hrow
  congr 1
  apply List.map_congr_left
  intro col hcol
  have := ht row hrow col hcol
  by_cases hb : b.get row col = UNUSED
  · rw [if_pos hb, if_pos (this.1 hb)]
  · rw [if_neg hb, if_neg (fun e => hb (this.2 e))]

/-- On the triangular layout the queue of `findValidMoves` holds exactly the legal jumps. -/
theorem mem_findValidMoves_triangular {b : Board} (ht : triangular b) (m : choice) :
    m ∈ (findValidMoves b).2 ↔ ∃ d, m.2 = d.toInt ∧ legalJump b m.1.1 m.1.2 d := by
  rw [mem_findValidMoves]
  constructor
  · rintro ⟨d, hd, hl, _⟩
    exact ⟨d, hd, hl⟩
  · rintro ⟨d, hd, hl⟩
    have := triangular_col ht hl.1 (by rw [hl.2.2.2.1]; simp)
    exact ⟨d, hd, hl, this.1, this.2⟩

theorem replay_pegs : ∀ (path : List choice) (b final : Board),
    replay b path = some final → countCells b USED = countCells final USED + path.length := by
  intro path
  induction path with
  | nil => intro b final h; simp [replay] at h; simp [h]
  | cons m ms ih =>
    intro b final h
    simp only [replay] at h
    cases hd : Direction.ofInt m.2 with
    | none => simp [hd] at h
    | some d =>
      simp only [hd] at h
      by_cases hl : legalJump b m.1.1 m.1.2 d
      · rw [if_pos hl] at h
        have := ih _ _ h
        have hc := (countCells_jump b _ _ d hl).1
        simp only [List.length_cons]
        omega
      · rw [if_neg hl] at h
        simp at h

/-- On the triangular layout every sequence of legal jumps that ends with one peg is a
run of the search. -/
theorem replay_winningRun : ∀ (path : List choice) (b final : Board), triangular b →
    replay b path = some final → countCells final USED = 1 → winningRun b path = true := by
  intro path
  induction path with
  | nil =>
    intro b final ht h h1
    simp only [replay, Option.some.injEq] at h
    subst h
    have := countCells_total b
    have := triangular_unused ht
    simp only [winningRun, findValidMoves_fst, decide_eq_true_eq]
    omega
  | cons m ms ih =>
    intro b final ht h h1
    have hpegs := replay_pegs _ _ _ h
    simp only [replay] at h
    cases hd : Direction.ofInt m.2 with
    | none => simp [hd] at h
    | some d =>
      simp only [hd] at h
      by_cases hl : legalJump b m.1.1 m.1.2 d
      · rw [if_pos hl] at h
        have hrest := ih _ _ (triangular_jump ht hl) h h1
        have hm : m ∈ (findValidMoves b).2 :=
          (mem_findValidMoves_triangular ht m).2 ⟨d, ofInt_eq_some hd, hl⟩
        have := countCells_total b
        have := triangular_unused ht
        simp only [List.length_cons] at hpegs
        simp only [winningRun, hd, hrest, Bool.and_true, Bool.and_eq_true, decide_eq_true_eq,
          findValidMoves_fst]
        exact ⟨by omega, hm⟩
      · rw [if_neg hl] at h
        simp at h


theorem replay_triangular : ∀ (path : List choice) (b final : Board), triangular b →
    replay b path = some final → triangular final := by
  intro path
  induction path with
  | nil => intro b final ht h; simp only [replay, Option.some.injEq] at h; exact h ▸ ht
  | cons m ms ih =>
    intro b final ht h
    simp only [replay] at h
    cases hd : Direction.ofInt m.2 with
    | none => simp [hd] at h
    | some d =>
      simp only [hd] at h
      by_cases hl : legalJump b m.1.1 m.1.2 d
      · rw [if_pos hl] at h
        exact ih _ _ (triangular_jump ht hl) h
      · rw [if_neg hl] at h
        simp at h

/-- On the triangular layout, 14 EMPTY cells means exactly one peg. -/
theorem triangular_one_peg {b : Board} (ht : triangular b) :
    countCells b EMPTY = 14 ↔ countCells b USED = 1 := by
  have := countCells_total b
  have := triangular_unused ht
  omega

theorem countP_eq_one_of_nodup {α : Type} [DecidableEq α] {a : α} {l : List α}
    (hn : l.Nodup) (hm : a ∈ l) : l.countP (fun m => decide (m = a)) = 1 := by
  induction l with
  | nil => simp at hm
  | cons x l ih =>
    obtain ⟨hx, hl⟩ := List.nodup_cons.1 hn
    rw [List.countP_cons]
    by_cases e : x = a
    · subst e
      have : l.countP (fun m => decide (m = x)) = 0 := by
        rw [List.countP_eq_zero]
        intro m hml
        simp only [decide_eq_true_eq]
        intro e
        exact hx (e ▸ hml)
      simp [this]
    · have hin : a ∈ l := by
        rcases List.mem_cons.1 hm with h | h
        · exact absurd h.symm e
        · exact h
      simp [ih hl hin, e]

theorem findValidMoves_nil_of_no_legal {b : Board}
    (hnone : ∀ row col d, ¬ legalJump b row col d) : (findValidMoves b).2 = [] := by
  apply List.eq_nil_iff_forall_not_mem.2
  intro m hm
  obtain ⟨d, _, hl, _⟩ := (mem_findValidMoves b m).1 hm
  exact hnone _ _ _ hl

theorem no_legal_of_findValidMoves_nil {b : Board} (ht : triangular b)
    (hq : (findValidMoves b).2 = []) : ∀ row col d, ¬ legalJump b row col d := by
  intro row col d hl
  have : ((row, col), d.toInt) ∈ (findValidMoves b).2 :=
    (mem_findValidMoves_triangular ht _).2 ⟨d, rfl, hl⟩
  rw [hq] at this
  simp at this

/-- What the history says about the returned value: it is non-empty exactly when `solve`
returned true on a board that did not already have 14 EMPTY cells. -/
theorem history_ne_nil_iff {fuel : Nat} {b b' : Board} {s : Bool} {history : Moves}
    (hret : solveInitial fuel b = some (s, b', history)) :
    history ≠ [] ↔ (s = true ∧ countCells b EMPTY ≠ 14) := by
  obtain ⟨_, ht, hf⟩ := solveInitial_spec hret
  cases s with
  | false => simp [(hf rfl).1]
  | true =>
    have hlen := winningRun_length _ _ (firstRun_winningRun _ _ (ht rfl))
    rw [List.length_reverse] at hlen
    constructor
    · intro hne
      refine ⟨rfl, fun h14 => hne ?_⟩
      exact List.length_eq_zero.1 (by omega)
    · rintro ⟨_, h14⟩ hnil
      rw [hnil] at hlen
      simp at hlen
      exact h14 hlen

/-! ## Enumeration order -/

theorem landingKey_of_mem_pushValid (b : Board) (row col : Int) (hg : inGrid row col)
    (he : b.get row col = EMPTY) (m : choice) (hm : m ∈ pushValid b row col []) :
    ∃ d, m.2 = Direction.toInt d ∧ landingKey m = (row, col, Direction.toInt d) := by
  obtain ⟨d, hd, hland⟩ := landing_of_mem_pushValid b row col hg he m hm
  refine ⟨d, hd, ?_⟩
  unfold landingKey
  rw [hd, ofInt_toInt]
  simp only
  rw [hland]

theorem pairwise_pushValid (b : Board) (row col : Int) (hg : inGrid row col)
    (he : b.get row col = EMPTY) :
    (pushValid b row col []).Pairwise (fun m m' => keyBefore (landingKey m) (landingKey m')) := by
  have hkey : ∀ i, (validMove b i row col).1 = true →
      landingKey (((validMove b i row col).2.1, (validMove b i row col).2.2), i.toInt)
        = (row, col, i.toInt) := by
    intro i hv
    obtain ⟨d, hd, hk⟩ := landingKey_of_mem_pushValid b row col hg he _
      ((mem_pushValid b row col _).2 ⟨i, hv, rfl⟩)
    have : i = d := toInt_inj hd
    rw [hk, this]
  rw [pushValid_eq, List.nil_append, List.pairwise_flatMap]
  constructor
  · intro i _
    by_cases h : (validMove b i row col).1 = true <;> simp [h]
  · have hdir : directionLoop.Pairwise (fun i j => i.toInt < j.toInt) := by decide
    refine hdir.imp ?_
    intro i j hij x hx y hy
    by_cases h : (validMove b i row col).1 = true
    · by_cases h' : (validMove b j row col).1 = true
      · simp only [h, h', if_true, List.mem_singleton] at hx hy
        rw [hx, hy, hkey i h, hkey j h']
        exact Or.inr ⟨rfl, Or.inr ⟨rfl, hij⟩⟩
      · simp [h'] at hy
    · simp [h] at hx

/-- The queue of `findValidMoves` is ordered by landing cell (row-major), then by direction. -/
theorem pairwise_findValidMoves (b : Board) :
    (findValidMoves b).2.Pairwise
      (fun m m' => keyBefore (landingKey m) (landingKey m')) := by
  rw [findValidMoves_eq]
  have key : ∀ row ∈ rowLoop, ∀ col ∈ colLoop, ∀ m,
      m ∈ (if b.get row col = EMPTY then pushValid b row col [] else []) →
      ∃ d, landingKey m = (row, col, Direction.toInt d) := by
    intro row hrow col hcol m hm
    by_cases he : b.get row col = EMPTY
    · simp only [he, if_true] at hm
      obtain ⟨d, _, hk⟩ := landingKey_of_mem_pushValid b row col
        ⟨(mem_rowLoop.1 hrow).1, (mem_rowLoop.1 hrow).2,
          (mem_colLoop.1 hcol).1, (mem_colLoop.1 hcol).2⟩ he m hm
      exact ⟨d, hk⟩
    · simp [he] at hm
  simp only
  rw [List.pairwise_flatMap]
  constructor
  · intro row hrow
    rw [List.pairwise_flatMap]
    constructor
    · intro col hcol
      by_cases he : b.get row col = EMPTY
      · simp only [he, if_true]
        exact pairwise_pushValid b row col
          ⟨(mem_rowLoop.1 hrow).1, (mem_rowLoop.1 hrow).2,
            (mem_colLoop.1 hcol).1, (mem_colLoop.1 hcol).2⟩ he
      · simp [he]
    · have hcols : colLoop.Pairwise (fun c c' => c < c') := by decide
      refine List.Pairwise.imp_of_mem ?_ hcols
      intro c c' hc hc' hlt x hx y hy
      obtain ⟨d, hk⟩ := key row hrow c hc x hx
      obtain ⟨d', hk'⟩ := key row hrow c' hc' y hy
      rw [hk, hk']
      exact Or.inr ⟨rfl, Or.inl hlt⟩
  · have hrows : rowLoop.Pairwise (fun r r' => r < r') := by decide
    refine List.Pairwise.imp_of_mem ?_ hrows
    intro r r' hr hr' hlt x hx y hy
    obtain ⟨c, hc, hx⟩ := List.mem_flatMap.1 hx
    obtain ⟨c', hc', hy⟩ := List.mem_flatMap.1 hy
    obtain ⟨d, hk⟩ := key r hr c hc x hx
    obtain ⟨d', hk'⟩ := key r' hr' c' hc' y hy
    rw [hk, hk']
    exact Or.inl hlt

/-! ## `validMove` in terms of its two candidate cells -/

theorem jumpedCell_farCell (er ec : Int) (d : Direction) :
    jumpedCell (farCell er ec d).1 (farCell er ec d).2 d = nearCell er ec d := by
  cases d <;> simp [jumpedCell, farCell, nearCell] <;> omega

theorem landingCell_farCell (er ec : Int) (d : Direction) :
    landingCell (farCell er ec d).1 (farCell er ec d).2 d = (er, ec) := by
  cases d <;> simp [landingCell, farCell]

theorem nearCell_halfway (er ec : Int) (d : Direction) :
    2 * (nearCell er ec d).1 = (farCell er ec d).1 + er ∧
    2 * (nearCell er ec d).2 = (farCell er ec d).2 + ec := by
  cases d <;> simp only [farCell, nearCell] <;> omega

/-- The guard of `validMove`: the call gets past its bounds check exactly when the far
candidate lies in rows 0 to 4 and columns 1 to 9; then it compares the two candidates. -/
theorem validMove_eq (b : Board) (d : Direction) (er ec : Int) (hg : inGrid er ec) :
    validMove b d er ec =
      if inGrid (farCell er ec d).1 (farCell er ec d).2 ∧
          1 ≤ (farCell er ec d).2 ∧ (farCell er ec d).2 ≤ 9 then
        (decide (b.get (nearCell er ec d).1 (nearCell er ec d).2 = USED)
            && decide (b.get (farCell er ec d).1 (farCell er ec d).2 = USED),
          (farCell er ec d).1, (farCell er ec d).2)
      else (false, er, ec) := by
  unfold inGrid at hg
  cases d <;> simp only [validMove, farCell, nearCell, inGrid] <;> split <;> rename_i h
  all_goals first
    | rw [if_neg (by omega)]
    | rw [if_pos (by omega)]

theorem inGrid_nearCell {er ec : Int} {d : Direction} (hg : inGrid er ec)
    (hf : inGrid (farCell er ec d).1 (farCell er ec d).2) :
    inGrid (nearCell er ec d).1 (nearCell er ec d).2 := by
  unfold inGrid at *
  cases d <;> simp only [farCell, nearCell] at * <;> omega

theorem not_inGrid_farCell {er ec : Int} {d : Direction} (hg : inGrid er ec)
    (hn : ¬ inGrid (nearCell er ec d).1 (nearCell er ec d).2) :
    ¬ inGrid (farCell er ec d).1 (farCell er ec d).2 :=
  fun hf => hn (inGrid_nearCell hg hf)

/-! ## What a returned call leaves behind -/

/-- For any budget with which the part of `solve` after the jump returns: the board is
the one it started with, a false result leaves the history alone, and a true result has
pushed the reverse of the first run. -/
theorem solveRest_result {fuel : Nat} {b b' : Board} {h h' : Moves} {s : Bool}
    (hres : solveRest (solve fuel) b h = some (s, b', h')) :
    b' = b ∧ (s = false → h' = h ∧ ∀ path, winningRun b path = false) ∧
      (s = true → ∃ path, h' = path.reverse ++ h ∧ firstRun b path) := by
  obtain ⟨s0, h0, hres0, ht, hf⟩ :=
    solveRest_spec (fuel + countCells b USED) b h (Nat.le_add_left _ _)
  have hmono := solveRest_mono (solve fuel) (solve (fuel + countCells b USED))
    (fun b h r c d x hx => solve_mono (Nat.le_add_right _ _) b h r c d x hx) b h _ hres
  rw [hres0] at hmono
  simp only [Option.some.injEq, Prod.mk.injEq] at hmono
  obtain ⟨rfl, rfl, rfl⟩ := hmono
  exact ⟨rfl, hf, ht⟩

/-- A recursive call for a queue entry that returns: the board is the jumped board, and
after `undo` it is the caller's board again, whatever the returned value. -/
theorem solve_call_result {fuel : Nat} {B b' : Board} {H h' : Moves} {m : choice} {s : Bool}
    (hm : m ∈ (findValidMoves B).2)
    (hret : solve fuel B H m.1.1 m.1.2 m.2 = some (s, b', h')) :
    ∃ d, Direction.ofInt m.2 = some d ∧ legalJump B m.1.1 m.1.2 d ∧
      b' = jump B m.1.1 m.1.2 d ∧ undo b' m.1.1 m.1.2 d = B ∧
      (s = false → h' = m :: H) ∧
      (s = true → ∃ path, h' = path.reverse ++ m :: H ∧
        firstRun (jump B m.1.1 m.1.2 d) path) := by
  obtain ⟨d, hd, hl, _⟩ := found_move hm
  cases fuel with
  | zero => simp [solve] at hret
  | succ f =>
    rw [solve_move f B H hm hd] at hret
    obtain ⟨hb, hf, ht⟩ := solveRest_result hret
    refine ⟨d, hd, hl, hb, ?_, fun hs => (hf hs).1, ht⟩
    rw [hb]
    exact undo_jump B _ _ d hl

theorem jump_unused_iff {b : Board} {row col : Int} {d : Direction}
    (hl : legalJump b row col d) (r c : Int) :
    (jump b row col d).get r c = UNUSED ↔ b.get r c = UNUSED := by
  obtain ⟨hs, hm, hlg, vs, vm, vl⟩ := hl
  by_cases e1 : r = row ∧ c = col
  · rw [e1.1, e1.2, jump_get_source b row col d hs, vs]; simp
  · by_cases e2 : r = (jumpedCell row col d).1 ∧ c = (jumpedCell row col d).2
    · rw [e2.1, e2.2, jump_get_jumped b row col d hm, vm]; simp
    · by_cases e3 : r = (landingCell row col d).1 ∧ c = (landingCell row col d).2
      · rw [e3.1, e3.2, jump_get_landing b row col d hlg, vl]; simp
      · rw [jump_get_other b row col d r c e1 e2 e3]

theorem searchBoard_replay : ∀ (path : List choice) (b final : Board),
    searchBoard b path = some final → replay b path = some final := by
  intro path
  induction path with
  | nil => intro b final h; simpa [searchBoard, replay] using h
  | cons m ms ih =>
    intro b final h
    simp only [searchBoard] at h
    by_cases hm : m ∈ (findValidMoves b).2
    · rw [if_pos hm] at h
      obtain ⟨d, hd, hl, _⟩ := found_move hm
      simp only [hd] at h
      simp only [replay, hd, if_pos hl]
      exact ih _ _ h
    · rw [if_neg hm] at h
      cases h

theorem replay_unused_iff : ∀ (path : List choice) (b final : Board),
    replay b path = some final →
      ∀ r c, (final.get r c = UNUSED ↔ b.get r c = UNUSED) := by
  intro path
  induction path with
  | nil =>
    intro b final h r c
    simp only [replay, Option.some.injEq] at h
    rw [h]
  | cons m ms ih =>
    intro b final h r c
    simp only [replay] at h
    cases hd : Direction.ofInt m.2 with
    | none => simp [hd] at h
    | some d =>
      simp only [hd] at h
      by_cases hl : legalJump b m.1.1 m.1.2 d
      · rw [if_pos hl] at h
        rw [ih _ _ h r c, jump_unused_iff hl]
      · rw [if_neg hl] at h
        cases h

/-! ## The cells read and written -/

theorem jump_eq_applyWrites (b : Board) (row col : Int) (d : Direction) :
    jump b row col d = applyWrites b (jumpWrites row col d) := by
  cases d <;> rfl

theorem undo_eq_applyWrites (b : Board) (row col : Int) (d : Direction) :
    undo b row col d = applyWrites b (undoWrites row col d) := by
  cases d <;> rfl

theorem jumpWrites_cells (row col : Int) (d : Direction) :
    (jumpWrites row col d).map Prod.fst
      = [(row, col), jumpedCell row col d, landingCell row col d] := by
  cases d <;> rfl

theorem undoWrites_cells (row col : Int) (d : Direction) :
    (undoWrites row col d).map Prod.fst
      = [(row, col), jumpedCell row col d, landingCell row col d] := by
  cases d <;> rfl

/-- The result of `validMove` depends on the board only through the cells listed by
`validMoveReads`. -/
theorem validMove_congr (b b' : Board) (i : Direction) (er ec : Int)
    (h : ∀ p ∈ validMoveReads i er ec, b.get p.1 p.2 = b'.get p.1 p.2) :
    validMove b i er ec = validMove b' i er ec := by
  cases i <;> simp only [validMove, validMoveReads] at h ⊢ <;> split <;> rename_i hb <;>
    simp only [hb, if_true, if_false, List.mem_cons, List.mem_singleton, List.not_mem_nil,
      forall_eq_or_imp, forall_eq, or_false] at h ⊢ <;>
    first
      | rfl
      | (rw [h.1, h.2])

theorem validMoveReads_inGrid (i : Direction) (er ec : Int) (hg : inGrid er ec) :
    ∀ p ∈ validMoveReads i er ec, inGrid p.1 p.2 := by
  unfold inGrid at hg
  intro p hp
  cases i <;> simp only [validMoveReads] at hp <;> split at hp <;>
    simp only [List.mem_cons, List.mem_singleton, List.not_mem_nil, or_false] at hp <;>
    first
      | exact absurd hp id
      | (rcases hp with rfl | rfl <;> (unfold inGrid; simp only; omega))

/-! ## The first run is the least run -/

theorem rank_append_of_not_mem (m : choice) (pre l : List choice) (h : m ∉ pre) :
    rank m (pre ++ l) = pre.length + rank m l := by
  induction pre with
  | nil => simp
  | cons x xs ih =>
    have hx : x ≠ m := fun e => h (by rw [e]; simp)
    have hxs : m ∉ xs := fun e => h (List.mem_cons_of_mem _ e)
    rw [List.cons_append, rank, if_neg hx, ih hxs, List.length_cons]
    omega

theorem firstRun_least : ∀ (p : List choice) (b : Board), firstRun b p →
    ∀ q, winningRun b q = true → dfsLe b p q = true := by
  intro p
  induction p with
  | nil => intro b _ q _; simp [dfsLe]
  | cons m ms ih =>
    intro b hfirst q hq
    obtain ⟨hne, d, hd, ⟨pre, post, hlist, hpre⟩, hrest⟩ := hfirst
    cases q with
    | nil => simp [winningRun, hne] at hq
    | cons m' ms' =>
      simp only [winningRun, Bool.and_eq_true, decide_eq_true_eq] at hq
      obtain ⟨⟨_, hm'⟩, hq'⟩ := hq
      by_cases e : m = m'
      · subst e
        rw [hd] at hq'
        simp only [dfsLe, if_true, hd]
        exact ih _ hrest ms' hq'
      · simp only [dfsLe, e, if_false, decide_eq_true_eq]
        obtain ⟨d', hd', _⟩ := found_move hm'
        rw [hd'] at hq'
        simp only at hq'
        have hm'pre : m' ∉ pre := by
          intro hin
          have := hpre m' hin d' hd' ms'
          rw [hq'] at this
          cases this
        have hmpre : m ∉ pre := by
          intro hin
          have := hpre m hin d hd ms
          rw [firstRun_winningRun _ _ hrest] at this
          cases this
        rw [hlist, rank_append_of_not_mem m pre _ hmpre,
          rank_append_of_not_mem m' pre _ hm'pre]
        simp only [rank, if_true, e, if_false]
        omega

/-! ## The text written by `main` -/

theorem reverseOnto_eq (history orderedHistory : Moves) :
    reverseOnto history orderedHistory = history.reverse ++ orderedHistory := by
  induction history generalizing orderedHistory with
  | nil => rfl
  | cons top rest ih => simp [reverseOnto, ih]

theorem flatMap_singleton_map {α β : Type} (g : α → β) (l : List α) :
    (l.flatMap fun a => [g a]) = l.map g := by
  induction l with
  | nil => rfl
  | cons a l ih => simp [List.flatMap_cons, ih]

/-- The printing loops of `main` write a frame: 5 lines of 11 characters, a space for
UNUSED, `X` for EMPTY and `O` for USED. -/
theorem printBoard_eq_frameText (b : Board) : printBoard b = frameText b := by
  unfold printBoard frameText
  congr 1
  funext r
  congr 1
  rw [← flatMap_singleton_map]
  congr 1
  funext c
  cases b.get r c <;> simp [cellChar]

theorem frameText_length (b : Board) : (frameText b).length = 60 := by
  simp [frameText, rowLoop, colLoop]

theorem frameText_head (b : Board) : ∃ c rest, frameText b = c :: rest ∧ c ≠ endl := by
  refine ⟨cellChar (b.get 0 0), (frameText b).tail, ?_, ?_⟩
  · simp only [frameText, rowLoop, colLoop, List.flatMap_cons, List.map_cons, List.cons_append,
      List.tail_cons]
  · cases b.get 0 0 <;> decide

theorem frames_eq_cons (b : Board) (path : List choice) :
    frames b path = frameText b :: (frames b path).tail := by
  cases path <;> simp [frames]

theorem winningRun_decodes : ∀ (path : List choice) (b : Board), winningRun b path = true →
    ∀ m ∈ path, ∃ d, Direction.ofInt m.2 = some d := by
  intro path
  induction path with
  | nil => intro b _ m hm; simp at hm
  | cons x xs ih =>
    intro b h m hm
    simp only [winningRun, Bool.and_eq_true, decide_eq_true_eq] at h
    obtain ⟨⟨_, hx⟩, hrest⟩ := h
    obtain ⟨d, hd, _⟩ := found_move hx
    rcases List.mem_cons.1 hm with rfl | hin
    · exact ⟨d, hd⟩
    · rw [hd] at hrest
      exact ih _ hrest m hin

theorem frames_length : ∀ (path : List choice) (b : Board),
    (∀ m ∈ path, ∃ d, Direction.ofInt m.2 = some d) →
      (frames b path).length = path.length + 1 := by
  intro path
  induction path with
  | nil => intro b _; rfl
  | cons x xs ih =>
    intro b h
    obtain ⟨d, hd⟩ := h x (by simp)
    simp only [frames, hd, List.length_cons]
    rw [ih _ (fun m hm => h m (List.mem_cons_of_mem _ hm))]

theorem printSteps_eq : ∀ (path : List choice) (b : Board),
    (∀ m ∈ path, ∃ d, Direction.ofInt m.2 = some d) →
      printSteps b path = some ((frames b path).tail.flatMap fun g => g ++ [endl]) := by
  intro path
  induction path with
  | nil => intro b _; rfl
  | cons x xs ih =>
    intro b h
    obtain ⟨d, hd⟩ := h x (by simp)
    have hrec := ih (jump b x.1.1 x.1.2 d) (fun m hm => h m (List.mem_cons_of_mem _ hm))
    simp only [printSteps, hd, hrec, frames, List.tail_cons]
    rw [frames_eq_cons (jump b x.1.1 x.1.2 d) xs, List.flatMap_cons, printBoard_eq_frameText]
    simp

/-- What `main` writes when `solve` leaves a non-empty history of decodable moves. -/
theorem mainOn_eq {fuel : Nat} {b b' : Board} {s : Bool} {history : Moves}
    (hret : solveInitial fuel b = some (s, b', history)) (hne : history ≠ [])
    (hdec : ∀ m ∈ history, ∃ d, Direction.ofInt m.2 = some d) :
    mainOn b fuel = some (writtenLayout (frames b' history.reverse)) := by
  unfold solveInitial at hret
  have hlen : history.length > 0 := List.length_pos.2 hne
  have hdec' : ∀ m ∈ history.reverse, ∃ d, Direction.ofInt m.2 = some d :=
    fun m hm => hdec m (List.mem_reverse.1 hm)
  simp only [mainOn, hret, hlen, if_true, reverseOnto_eq, List.append_nil,
    printSteps_eq _ b' hdec']
  rw [frames_eq_cons b' history.reverse, printBoard_eq_frameText]
  rfl

/-- With at least two frames the text that `main` writes is not the blank-line separated
text: the second frame starts right after the first. -/
theorem writtenLayout_ne (b : Board) (m : choice) (ms : List choice) (d : Direction)
    (hd : Direction.ofInt m.2 = some d) :
    writtenLayout (frames b (m :: ms)) ≠ blankLineSeparated (frames b (m :: ms)) := by
  simp only [frames, hd]
  rw [frames_eq_cons (jump b m.1.1 m.1.2 d) ms]
  obtain ⟨c, rest, hc, hne⟩ := frameText_head (jump b m.1.1 m.1.2 d)
  simp only [writtenLayout, blankLineSeparated, List.flatMap_cons, hc, List.append_assoc,
    List.cons_append, List.singleton_append]
  intro e
  have e2 := List.append_cancel_left e
  simp only [List.cons.injEq] at e2
  exact hne e2.1

theorem frames_mem : ∀ (path : List choice) (b : Board) (f : List Char),
    f ∈ frames b path → ∃ b', f = frameText b' := by
  intro path
  induction path with
  | nil =>
    intro b f hf
    simp only [frames, List.mem_singleton] at hf
    exact ⟨b, hf⟩
  | cons m ms ih =>
    intro b f hf
    simp only [frames, List.mem_cons] at hf
    rcases hf with rfl | hf
    · exact ⟨b, rfl⟩
    · cases hd : Direction.ofInt m.2 with
      | none => simp [hd] at hf
      | some d =>
        simp only [hd] at hf
        exact ih _ f hf

/-! ## The length of the history -/

theorem searchPath_length : ∀ (path : List choice) (b : Board), searchPath b path = true →
    countCells b EMPTY ≤ 14 → path.length + countCells b EMPTY ≤ 14 := by
  intro path
  induction path with
  | nil => intro b _ h; simpa using h
  | cons m ms ih =>
    intro b h hle
    simp only [searchPath, Bool.and_eq_true, decide_eq_true_eq] at h
    obtain ⟨⟨hne, hm⟩, hrest⟩ := h
    obtain ⟨d, hd, hl, _⟩ := found_move hm
    rw [hd] at hrest
    simp only at hrest
    rw [findValidMoves_fst] at hne
    have hc := (countCells_jump b _ _ d hl).2.1
    have := ih _ hrest (by omega)
    simp only [List.length_cons]
    omega

theorem winningRun_searchPath : ∀ (path : List choice) (b : Board),
    winningRun b path = true → searchPath b path = true := by
  intro path
  induction path with
  | nil => intro b _; rfl
  | cons m ms ih =>
    intro b h
    simp only [winningRun, Bool.and_eq_true, decide_eq_true_eq] at h
    obtain ⟨⟨hne, hm⟩, hrest⟩ := h
    obtain ⟨d, hd, _⟩ := found_move hm
    rw [hd] at hrest
    simp only at hrest
    simp only [searchPath, hd, Bool.and_eq_true, decide_eq_true_eq]
    exact ⟨⟨hne, hm⟩, ih _ hrest⟩

/-! ## The claims -/

/-- C1.  If the initial (sentinel) call of `solve` on a board `B` with an empty history
returns true, then the moves left in the history, taken oldest first (the stack
reversed) and applied one after another to `B` with `jump`, are each legal when they are
applied, and the board after the last one has exactly 14 EMPTY cells; on the triangular
layout that board has exactly one peg. -/
theorem solve_history_replays (fuel : Nat) (B b' : Board) (history : Moves)
    (hret : solveInitial fuel B = some (true, b', history)) :
    ∃ final, replay B history.reverse = some final ∧ countCells final EMPTY = 14 ∧
      (triangular B → countCells final USED = 1) := by
  obtain ⟨_, ht, _⟩ := solveInitial_spec hret
  obtain ⟨final, hrep, hcnt⟩ := winningRun_replay _ _ (firstRun_winningRun _ _ (ht rfl))
  exact ⟨final, hrep, hcnt, fun htri =>
    (triangular_one_peg (replay_triangular _ _ _ htri hrep)).1 hcnt⟩

theorem solve_history_replays_witness :
    solveInitial 2 twoPegBoard = some (true, twoPegBoard, [((4, 1), 3)]) ∧
    ∃ final, replay twoPegBoard [((4, 1), 3)].reverse = some final ∧
      countCells final EMPTY = 14 ∧ (triangular twoPegBoard → countCells final USED = 1) :=
  ⟨by decide, solve_history_replays 2 twoPegBoard twoPegBoard [((4, 1), 3)] (by decide)⟩

/-- C2.  The sentinel call of `solve` on the board literal of `main`, started with an
empty history, returns (for every recursion budget of at least 15) the value true, with
the board restored and a history of exactly 13 moves. -/
theorem solve_initialBoard :
    ∃ history : Moves, history.length = 13 ∧
      ∀ fuel, solveInitial (fuel + 15) initialBoard = some (true, initialBoard, history) := by
  obtain ⟨s, h, hall, ht, hf⟩ := solveInitial_returns initialBoard
  have hpegs : countCells initialBoard USED = 14 := by decide
  have hempty : countCells initialBoard EMPTY = 1 := by decide
  have hwin : winningRun initialBoard samplePath = true := by decide
  cases s with
  | false =>
    have := (hf rfl).2 samplePath
    rw [hwin] at this
    cases this
  | true =>
    refine ⟨h, ?_, fun fuel => hall _ (by omega)⟩
    have := winningRun_length _ _ (firstRun_winningRun _ _ (ht rfl))
    rw [List.length_reverse] at this
    omega

/-- C3.  The search is exhaustive on the triangular layout: if the sentinel call returns
false, no sequence of legal jumps leads from the board to a board with exactly one peg;
and whenever such a sequence exists the call returns true (for every budget above the
number of pegs). -/
theorem solve_exhaustive (b : Board) (ht : triangular b) :
    (∀ fuel b' history, solveInitial fuel b = some (false, b', history) →
      ∀ path final, replay b path = some final → countCells final USED ≠ 1) ∧
    (∀ path final, replay b path = some final → countCells final USED = 1 →
      ∀ fuel, countCells b USED < fuel →
        ∃ history, solveInitial fuel b = some (true, b, history)) := by
  constructor
  · intro fuel b' history hret path final hrep h1
    have hnone := ((solveInitial_spec hret).2.2 rfl).2 path
    rw [replay_winningRun path b final ht hrep h1] at hnone
    cases hnone
  · intro path final hrep h1 fuel hfuel
    obtain ⟨s, h, hall, _, hf⟩ := solveInitial_returns b
    cases s with
    | false =>
      have hnone := (hf rfl).2 path
      rw [replay_winningRun path b final ht hrep h1] at hnone
      cases hnone
    | true => exact ⟨h, hall fuel hfuel⟩

theorem solve_exhaustive_witness :
    (triangular stuckBoard ∧ solveInitial 1 stuckBoard = some (false, stuckBoard, []) ∧
      ∀ path final, replay stuckBoard path = some final → countCells final USED ≠ 1) ∧
    (triangular initialBoard ∧
      (replay initialBoard samplePath).map (fun b => countCells b USED) = some 1 ∧
      ∃ history, solveInitial 15 initialBoard = some (true, initialBoard, history)) := by
  refine ⟨⟨by decide, by decide, ?_⟩, by decide, by decide, ?_⟩
  · exact (solve_exhaustive stuckBoard (by decide)).1 1 stuckBoard [] (by decide)
  · cases hrep : replay initialBoard samplePath with
    | none => exact absurd hrep (by decide)
    | some final =>
      have h1 : countCells final USED = 1 := by
        have : (replay initialBoard samplePath).map (fun b => countCells b USED) = some 1 := by
          decide
        rw [hrep] at this
        simpa using this
      exact (solve_exhaustive initialBoard (by decide)).2 samplePath final hrep h1 15
        (by decide)

/-- C4.  For every 5x11 board the sentinel call of `solve` terminates: with any recursion
budget above the number of pegs it returns, always the same result; every recursive call
is made for a move taken from `findValidMoves`, first applies the jump of that move, and
that jump lowers the number of Occupied cells by exactly one. -/
theorem solve_terminates (b : Board) :
    (∃ r, ∀ fuel, countCells b USED < fuel → solveInitial fuel b = some r) ∧
    (∀ (board : Board) (m : choice), m ∈ (findValidMoves board).2 →
      ∃ d, Direction.ofInt m.2 = some d ∧
        (∀ fuel history, solve (fuel + 1) board history m.1.1 m.1.2 m.2
          = solveRest (solve fuel) (jump board m.1.1 m.1.2 d) (m :: history)) ∧
        countCells (jump board m.1.1 m.1.2 d) USED + 1 = countCells board USED) := by
  constructor
  · obtain ⟨s, h, hall, _⟩ := solveInitial_returns b
    exact ⟨(s, b, h), hall⟩
  · intro board m hm
    obtain ⟨d, hd, _⟩ := found_move hm
    exact ⟨d, hd, fun fuel history => solve_move fuel board history hm hd,
      countCells_found hm hd⟩

/-- C5.  Move reversibility: for every board `B` and every valid move on it (source and
jumped-over cell Occupied, landing cell Empty, all three inside the grid),
`undo (jump B M) M` equals `B` in all 55 cells. -/
theorem undo_jump_restores (B : Board) (row col : Int) (d : Direction)
    (hvalid : legalJump B row col d) :
    undo (jump B row col d) row col d = B ∧
      ∀ r c, inGrid r c → (undo (jump B row col d) row col d).get r c = B.get r c := by
  have h := undo_jump B row col d hvalid
  exact ⟨h, fun r c _ => by rw [h]⟩

theorem undo_jump_restores_witness :
    legalJump initialBoard 4 9 R ∧
    undo (jump initialBoard 4 9 R) 4 9 R = initialBoard ∧
      ∀ r c, inGrid r c →
        (undo (jump initialBoard 4 9 R) 4 9 R).get r c = initialBoard.get r c :=
  ⟨by decide, undo_jump_restores initialBoard 4 9 R (by decide)⟩

/-- C6.  Cell-count invariant: for every board and every valid move on it, `jump` lowers
the number of Occupied cells by exactly one, raises the number of Empty cells by exactly
one, and leaves the number of Unused cells unchanged. -/
theorem jump_cell_counts (b : Board) (row col : Int) (d : Direction)
    (hvalid : legalJump b row col d) :
    countCells (jump b row col d) USED + 1 = countCells b USED ∧
    countCells (jump b row col d) EMPTY = countCells b EMPTY + 1 ∧
    countCells (jump b row col d) UNUSED = countCells b UNUSED :=
  countCells_jump b row col d hvalid

theorem jump_cell_counts_witness :
    legalJump initialBoard 2 3 UL ∧
    countCells (jump initialBoard 2 3 UL) USED + 1 = countCells initialBoard USED ∧
    countCells (jump initialBoard 2 3 UL) EMPTY = countCells initialBoard EMPTY + 1 ∧
    countCells (jump initialBoard 2 3 UL) UNUSED = countCells initialBoard UNUSED :=
  ⟨by decide, jump_cell_counts initialBoard 2 3 UL (by decide)⟩

/-- C7.  Effect of `jump`: for every board, in-grid source and direction whose
jumped-over and landing cells are in the grid, after `jump` the source cell is Empty, the
jumped-over cell is Empty, the landing cell is Occupied, and every other cell is
unchanged; the three cells are pairwise different, so the other cells are 52. -/
theorem jump_effect (b : Board) (row col : Int) (d : Direction)
    (hsource : inGrid row col)
    (hjumped : inGrid (jumpedCell row col d).1 (jumpedCell row col d).2)
    (hlanding : inGrid (landingCell row col d).1 (landingCell row col d).2) :
    (jump b row col d).get row col = EMPTY ∧
    (jump b row col d).get (jumpedCell row col d).1 (jumpedCell row col d).2 = EMPTY ∧
    (jump b row col d).get (landingCell row col d).1 (landingCell row col d).2 = USED ∧
    (∀ r c, inGrid r c → (r, c) ≠ (row, col) → (r, c) ≠ jumpedCell row col d →
      (r, c) ≠ landingCell row col d → (jump b row col d).get r c = b.get r c) ∧
    jumpedCell row col d ≠ (row, col) ∧ landingCell row col d ≠ (row, col) ∧
    landingCell row col d ≠ jumpedCell row col d := by
  obtain ⟨h1, h2, h3⟩ := cells_distinct row col d
  refine ⟨jump_get_source b row col d hsource, jump_get_jumped b row col d hjumped,
    jump_get_landing b row col d hlanding, ?_, ?_, ?_, ?_⟩
  · intro r c _ n1 n2 n3
    apply jump_get_other
    · rintro ⟨rfl, rfl⟩; exact n1 rfl
    · rintro ⟨e1, e2⟩; exact n2 (Prod.ext e1 e2)
    · rintro ⟨e1, e2⟩; exact n3 (Prod.ext e1 e2)
  · intro e; exact h1 ⟨congrArg Prod.fst e, congrArg Prod.snd e⟩
  · intro e; exact h2 ⟨congrArg Prod.fst e, congrArg Prod.snd e⟩
  · intro e; exact h3 ⟨congrArg Prod.fst e, congrArg Prod.snd e⟩

theorem jump_effect_witness :
    (inGrid 4 1 ∧ inGrid (jumpedCell 4 1 L).1 (jumpedCell 4 1 L).2 ∧
      inGrid (landingCell 4 1 L).1 (landingCell 4 1 L).2) ∧
    (jump initialBoard 4 1 L).get 4 1 = EMPTY ∧
    (jump initialBoard 4 1 L).get (jumpedCell 4 1 L).1 (jumpedCell 4 1 L).2 = EMPTY ∧
    (jump initialBoard 4 1 L).get (landingCell 4 1 L).1 (landingCell 4 1 L).2 = USED ∧
    (∀ r c, inGrid r c → (r, c) ≠ (4, 1) → (r, c) ≠ jumpedCell 4 1 L →
      (r, c) ≠ landingCell 4 1 L → (jump initialBoard 4 1 L).get r c = initialBoard.get r c) ∧
    jumpedCell 4 1 L ≠ (4, 1) ∧ landingCell 4 1 L ≠ (4, 1) ∧
    landingCell 4 1 L ≠ jumpedCell 4 1 L :=
  ⟨by decide, jump_effect initialBoard 4 1 L (by decide) (by decide) (by decide)⟩


/-- C8.  No-solution detection: for every board with the triangular layout on which no
legal jump exists, the sentinel call of `solve` started with an empty history returns
true if exactly one peg remains and false if more than one peg remains, and in both cases
the history is still empty afterwards (and the board unchanged). -/
theorem solve_without_moves (b : Board) (ht : triangular b)
    (hnone : ∀ row col d, ¬ legalJump b row col d) (fuel : Nat) :
    (countCells b USED = 1 → solveInitial (fuel + 1) b = some (true, b, [])) ∧
    (1 < countCells b USED → solveInitial (fuel + 1) b = some (false, b, [])) := by
  have hq := findValidMoves_nil_of_no_legal hnone
  have h14 := triangular_one_peg ht
  unfold solveInitial
  rw [solve_sentinel]
  simp only [solveRest, findValidMoves_fst, hq]
  constructor
  · intro h1
    simp [h14.2 h1]
  · intro h1
    have : countCells b EMPTY ≠ 14 := fun e => by have := h14.1 e; omega
    simp [this]

theorem solve_without_moves_witness :
    (triangular onePegBoard ∧ countCells onePegBoard USED = 1 ∧
      solveInitial (0 + 1) onePegBoard = some (true, onePegBoard, [])) ∧
    (triangular stuckBoard ∧ 1 < countCells stuckBoard USED ∧
      solveInitial (0 + 1) stuckBoard = some (false, stuckBoard, [])) :=
  ⟨⟨by decide, by decide,
      (solve_without_moves onePegBoard (by decide)
        (no_legal_of_findValidMoves_nil (by decide) (by decide)) 0).1 (by decide)⟩,
    ⟨by decide, by decide,
      (solve_without_moves stuckBoard (by decide)
        (no_legal_of_findValidMoves_nil (by decide) (by decide)) 0).2 (by decide)⟩⟩

/-- C9 (as amended).  For every board, after the sentinel call of `solve` started with an
empty history, the history is non-empty exactly when a solution was found (`solve`
returned true) on a board that did not already have 14 EMPTY cells; it is empty exactly
when there is no solution (`solve` returned false) or the input board already has 14
EMPTY cells, in which case `solve` returns true at once with nothing pushed. -/
theorem solve_history_nonempty (fuel : Nat) (b b' : Board) (s : Bool) (history : Moves)
    (hret : solveInitial fuel b = some (s, b', history)) :
    (history ≠ [] ↔ (s = true ∧ countCells b EMPTY ≠ 14)) ∧
    (history = [] ↔ (s = false ∨ countCells b EMPTY = 14)) ∧
    (countCells b EMPTY = 14 → s = true ∧ history = []) := by
  have hiff := history_ne_nil_iff hret
  have h14 : countCells b EMPTY = 14 → s = true := by
    intro e
    cases s with
    | true => rfl
    | false =>
      have hnone := ((solveInitial_spec hret).2.2 rfl).2 []
      simp [winningRun, findValidMoves_fst, e] at hnone
  refine ⟨hiff, ?_, ?_⟩
  · constructor
    · intro hnil
      by_cases e : countCells b EMPTY = 14
      · exact Or.inr e
      · cases s with
        | false => exact Or.inl rfl
        | true => exact absurd hnil (hiff.2 ⟨rfl, e⟩)
    · intro h
      by_contra hne
      obtain ⟨hs, hc⟩ := hiff.1 hne
      rcases h with h | h
      · rw [hs] at h; cases h
      · exact hc h
  · intro e
    refine ⟨h14 e, ?_⟩
    by_contra hne
    exact (hiff.1 hne).2 e

theorem solve_history_nonempty_witness :
    solveInitial 2 twoPegBoard = some (true, twoPegBoard, [((4, 1), 3)]) ∧
    countCells twoPegBoard EMPTY = 13 ∧
    (([(((4, 1), 3) : choice)] ≠ [] ↔ (true = true ∧ countCells twoPegBoard EMPTY ≠ 14)) ∧
      ([(((4, 1), 3) : choice)] = [] ↔ (true = false ∨ countCells twoPegBoard EMPTY = 14)) ∧
      (countCells twoPegBoard EMPTY = 14 → true = true ∧ [(((4, 1), 3) : choice)] = [])) :=
  ⟨by decide, by decide,
    solve_history_nonempty 2 twoPegBoard twoPegBoard true [((4, 1), 3)] (by decide)⟩

/-- C9 (as stated) fails: on the triangular board with a single peg the sentinel call of
`solve` returns true, for every positive recursion budget, and leaves the history empty;
so the history is empty although a solution was found, and "non-empty exactly when
`solve` returned true" is false there. -/
theorem solved_board_history_empty :
    triangular onePegBoard ∧ countCells onePegBoard USED = 1 ∧
    (∀ fuel, solveInitial (fuel + 1) onePegBoard = some (true, onePegBoard, [])) ∧
    ¬ ((([] : Moves) ≠ []) ↔ (true = true)) := by
  refine ⟨by decide, by decide, fun fuel => ?_, by simp⟩
  exact solve_mono (Nat.succ_le_succ (Nat.zero_le fuel)) _ _ _ _ _ _
    (show solve 1 onePegBoard [] (-1) (-1) (-1) = some (true, onePegBoard, []) by decide)

/-- C10.  `findValidMoves` finds all valid moves: for every board with the triangular
layout, the queue it builds contains exactly the legal jumps of the board (source and
jumped-over cell Occupied, landing cell Empty, all three inside the grid), each of them
exactly once, and nothing else. -/
theorem findValidMoves_exact (b : Board) (ht : triangular b) :
    (findValidMoves b).2.Nodup ∧
    (∀ row col d, ((row, col), Direction.toInt d) ∈ (findValidMoves b).2 ↔
      legalJump b row col d) ∧
    (∀ row col d, legalJump b row col d →
      (findValidMoves b).2.countP (fun m => decide (m = ((row, col), Direction.toInt d))) = 1) ∧
    (∀ m ∈ (findValidMoves b).2, ∃ d, m.2 = Direction.toInt d ∧ legalJump b m.1.1 m.1.2 d) := by
  have hmem : ∀ row col d, ((row, col), Direction.toInt d) ∈ (findValidMoves b).2 ↔
      legalJump b row col d := by
    intro row col d
    rw [mem_findValidMoves_triangular ht]
    constructor
    · rintro ⟨d', hd', hl⟩
      have : d = d' := toInt_inj hd'
      subst this
      exact hl
    · intro hl
      exact ⟨d, rfl, hl⟩
  refine ⟨nodup_findValidMoves b, hmem, ?_, ?_⟩
  · intro row col d hl
    exact countP_eq_one_of_nodup (nodup_findValidMoves b) ((hmem row col d).2 hl)
  · intro m hm
    exact (mem_findValidMoves_triangular ht m).1 hm

theorem findValidMoves_exact_witness :
    triangular initialBoard ∧
    (findValidMoves initialBoard).2.Nodup ∧
    (∀ row col d, ((row, col), Direction.toInt d) ∈ (findValidMoves initialBoard).2 ↔
      legalJump initialBoard row col d) ∧
    (∀ row col d, legalJump initialBoard row col d →
      (findValidMoves initialBoard).2.countP
        (fun m => decide (m = ((row, col), Direction.toInt d))) = 1) ∧
    (∀ m ∈ (findValidMoves initialBoard).2,
      ∃ d, m.2 = Direction.toInt d ∧ legalJump initialBoard m.1.1 m.1.2 d) :=
  ⟨by decide, findValidMoves_exact initialBoard (by decide)⟩


/-- C11.  Enumeration order: for every board, `findValidMoves` lists its moves ordered
first by landing (EMPTY) cell in row-major order and, for the same landing cell, in the
direction order R, DR, DL, L, UL, UR; on the board literal of `main` it returns
empty-count 1 and the moves ((4,9),R), ((4,1),L), ((2,3),UL), ((2,7),UR) in that order. -/
theorem findValidMoves_order (b : Board) :
    (findValidMoves b).2.Pairwise
      (fun m m' => keyBefore (landingKey m) (landingKey m')) ∧
    findValidMoves initialBoard =
      (1, [((4, 9), Direction.toInt R), ((4, 1), Direction.toInt L),
           ((2, 3), Direction.toInt UL), ((2, 7), Direction.toInt UR)]) :=
  ⟨pairwise_findValidMoves b, by decide⟩

/-- C12 (as amended).  For every 5x11 board, every direction and every in-grid cell `e`
that is EMPTY: `validMove` returns false if either of its two candidate cells lies
outside the 5x11 grid or the far candidate (two steps away) lies in column 0 or
column 10, and otherwise returns true exactly when both candidate cells are Occupied. -/
theorem validMove_candidates (b : Board) (d : Direction) (er ec : Int)
    (hg : inGrid er ec) (_hempty : b.get er ec = EMPTY) :
    ((¬ inGrid (nearCell er ec d).1 (nearCell er ec d).2 ∨
        ¬ inGrid (farCell er ec d).1 (farCell er ec d).2 ∨
        (farCell er ec d).2 = 0 ∨ (farCell er ec d).2 = 10) →
      (validMove b d er ec).1 = false) ∧
    (inGrid (nearCell er ec d).1 (nearCell er ec d).2 →
      inGrid (farCell er ec d).1 (farCell er ec d).2 →
      (farCell er ec d).2 ≠ 0 → (farCell er ec d).2 ≠ 10 →
      ((validMove b d er ec).1 = true ↔
        (b.get (nearCell er ec d).1 (nearCell er ec d).2 = USED ∧
          b.get (farCell er ec d).1 (farCell er ec d).2 = USED))) := by
  rw [validMove_eq b d er ec hg]
  constructor
  · intro h
    rw [if_neg]
    rintro ⟨hf, h1, h9⟩
    rcases h with h | h | h | h
    · exact not_inGrid_farCell hg h hf
    · exact h hf
    · omega
    · omega
  · intro _ hf h0 h10
    have hcol : 1 ≤ (farCell er ec d).2 ∧ (farCell er ec d).2 ≤ 9 := by
      have := hf.2.2
      omega
    rw [if_pos ⟨hf, hcol⟩]
    simp

theorem validMove_candidates_witness :
    (inGrid 4 5 ∧ initialBoard.get 4 5 = EMPTY) ∧
    ((¬ inGrid (nearCell 4 5 R).1 (nearCell 4 5 R).2 ∨
        ¬ inGrid (farCell 4 5 R).1 (farCell 4 5 R).2 ∨
        (farCell 4 5 R).2 = 0 ∨ (farCell 4 5 R).2 = 10) →
      (validMove initialBoard R 4 5).1 = false) ∧
    (inGrid (nearCell 4 5 R).1 (nearCell 4 5 R).2 →
      inGrid (farCell 4 5 R).1 (farCell 4 5 R).2 →
      (farCell 4 5 R).2 ≠ 0 → (farCell 4 5 R).2 ≠ 10 →
      ((validMove initialBoard R 4 5).1 = true ↔
        (initialBoard.get (nearCell 4 5 R).1 (nearCell 4 5 R).2 = USED ∧
          initialBoard.get (farCell 4 5 R).1 (farCell 4 5 R).2 = USED))) :=
  ⟨by decide, validMove_candidates initialBoard R 4 5 (by decide) (by decide)⟩

/-- C12 (as stated) fails: on `edgeBoard` the cell (0,6) is in the grid and EMPTY, both
candidate cells of direction `R`, (0,8) and (0,10), are inside the 5x11 grid and
Occupied, and yet `validMove` returns false. -/
theorem validMove_candidates_counterexample :
    (inGrid 0 6 ∧ edgeBoard.get 0 6 = EMPTY) ∧
    (inGrid (nearCell 0 6 R).1 (nearCell 0 6 R).2 ∧
      inGrid (farCell 0 6 R).1 (farCell 0 6 R).2) ∧
    ¬ ((validMove edgeBoard R 0 6).1 = true ↔
        (edgeBoard.get (nearCell 0 6 R).1 (nearCell 0 6 R).2 = USED ∧
          edgeBoard.get (farCell 0 6 R).1 (farCell 0 6 R).2 = USED)) := by
  decide

/-- C13.  Validity symmetry: for every board, direction `d` and in-grid EMPTY cell `e`,
if `validMove` returns true and yields the source `S`, then `S` and the cell halfway
between `S` and `e` are inside the grid and Occupied, and `jump` from `S` in direction
`d` jumps over exactly that halfway cell and lands exactly on `e`. -/
theorem validMove_jump_symmetry (b : Board) (d : Direction) (er ec : Int)
    (hg : inGrid er ec) (hempty : b.get er ec = EMPTY)
    (hvalid : (validMove b d er ec).1 = true) :
    ∃ sr sc mr mc, (validMove b d er ec).2 = (sr, sc) ∧
      2 * mr = sr + er ∧ 2 * mc = sc + ec ∧
      inGrid sr sc ∧ b.get sr sc = USED ∧ inGrid mr mc ∧ b.get mr mc = USED ∧
      jumpedCell sr sc d = (mr, mc) ∧ landingCell sr sc d = (er, ec) ∧
      (jump b sr sc d).get sr sc = EMPTY ∧ (jump b sr sc d).get mr mc = EMPTY ∧
      (jump b sr sc d).get er ec = USED ∧
      (∀ r c, (r, c) ≠ (sr, sc) → (r, c) ≠ (mr, mc) → (r, c) ≠ (er, ec) →
        (jump b sr sc d).get r c = b.get r c) := by
  obtain ⟨hland, hlegal, _, _⟩ := validMove_true b d er ec hg hempty hvalid
  have hsnd : (validMove b d er ec).2 = farCell er ec d := by
    rw [validMove_eq b d er ec hg] at hvalid ⊢
    split
    · rfl
    · rename_i h; rw [if_neg h] at hvalid; cases hvalid
  rw [hsnd] at hland hlegal
  obtain ⟨hs, hm, hl, vs, vm, _⟩ := hlegal
  have hj := jumpedCell_farCell er ec d
  obtain ⟨e1, e2⟩ := nearCell_halfway er ec d
  rw [hj] at hm vm
  refine ⟨(farCell er ec d).1, (farCell er ec d).2, (nearCell er ec d).1,
    (nearCell er ec d).2, hsnd, e1, e2, hs, vs, hm, vm, hj, hland, ?_, ?_, ?_, ?_⟩
  · exact jump_get_source b _ _ d hs
  · have := jump_get_jumped b (farCell er ec d).1 (farCell er ec d).2 d (by rw [hj]; exact hm)
    rw [hj] at this
    exact this
  · have := jump_get_landing b (farCell er ec d).1 (farCell er ec d).2 d (by rw [hland]; exact hg)
    rw [hland] at this
    exact this
  · intro r c n1 n2 n3
    apply jump_get_other
    · rintro ⟨rfl, rfl⟩; exact n1 rfl
    · rw [hj]; rintro ⟨rfl, rfl⟩; exact n2 rfl
    · rw [hland]; rintro ⟨rfl, rfl⟩; exact n3 rfl

theorem validMove_jump_symmetry_witness :
    (inGrid 4 5 ∧ initialBoard.get 4 5 = EMPTY ∧ (validMove initialBoard R 4 5).1 = true) ∧
    ∃ sr sc mr mc, (validMove initialBoard R 4 5).2 = (sr, sc) ∧
      2 * mr = sr + 4 ∧ 2 * mc = sc + 5 ∧
      inGrid sr sc ∧ initialBoard.get sr sc = USED ∧ inGrid mr mc ∧
      initialBoard.get mr mc = USED ∧
      jumpedCell sr sc R = (mr, mc) ∧ landingCell sr sc R = (4, 5) ∧
      (jump initialBoard sr sc R).get sr sc = EMPTY ∧
      (jump initialBoard sr sc R).get mr mc = EMPTY ∧
      (jump initialBoard sr sc R).get 4 5 = USED ∧
      (∀ r c, (r, c) ≠ (sr, sc) → (r, c) ≠ (mr, mc) → (r, c) ≠ (4, 5) →
        (jump initialBoard sr sc R).get r c = initialBoard.get r c) :=
  ⟨by decide, validMove_jump_symmetry initialBoard R 4 5 (by decide) (by decide) (by decide)⟩

/-- C14.  Unused cells never change: for every board and every move that
`findValidMoves` produces for it, `jump` and the matching `undo` leave every Unused cell
Unused and turn no Occupied or Empty cell into Unused; so every board the search reaches
by such moves has the Unused cells exactly where the starting board has them. -/
theorem unused_cells_fixed (b : Board) :
    (∀ m ∈ (findValidMoves b).2, ∃ d, Direction.ofInt m.2 = some d ∧
      (∀ r c, inGrid r c →
        ((jump b m.1.1 m.1.2 d).get r c = UNUSED ↔ b.get r c = UNUSED)) ∧
      (∀ r c, inGrid r c →
        ((undo (jump b m.1.1 m.1.2 d) m.1.1 m.1.2 d).get r c = UNUSED ↔
          (jump b m.1.1 m.1.2 d).get r c = UNUSED))) ∧
    (∀ path reached, searchBoard b path = some reached →
      ∀ r c, inGrid r c → (reached.get r c = UNUSED ↔ b.get r c = UNUSED)) := by
  constructor
  · intro m hm
    obtain ⟨d, hd, hl, _⟩ := found_move hm
    refine ⟨d, hd, fun r c _ => jump_unused_iff hl r c, fun r c _ => ?_⟩
    rw [undo_jump b _ _ d hl, jump_unused_iff hl]
  · intro path reached h r c _
    exact replay_unused_iff path b reached (searchBoard_replay path b reached h) r c

/-- C16 (as amended).  If the move is valid, `jump` sets the moving peg's original
location to EMPTY, also sets the location of the peg it jumped over to EMPTY, and sets
the location where the peg landed to USED. -/
theorem jump_sets_cells (b : Board) (row col : Int) (d : Direction)
    (hvalid : legalJump b row col d) :
    (jump b row col d).get row col = EMPTY ∧
    (jump b row col d).get (jumpedCell row col d).1 (jumpedCell row col d).2 = EMPTY ∧
    (jump b row col d).get (landingCell row col d).1 (landingCell row col d).2 = USED :=
  ⟨jump_get_source b row col d hvalid.1, jump_get_jumped b row col d hvalid.2.1,
    jump_get_landing b row col d hvalid.2.2.1⟩

theorem jump_sets_cells_witness :
    legalJump initialBoard 4 9 R ∧
    (jump initialBoard 4 9 R).get 4 9 = EMPTY ∧
    (jump initialBoard 4 9 R).get (jumpedCell 4 9 R).1 (jumpedCell 4 9 R).2 = EMPTY ∧
    (jump initialBoard 4 9 R).get (landingCell 4 9 R).1 (landingCell 4 9 R).2 = USED :=
  ⟨by decide, jump_sets_cells initialBoard 4 9 R (by decide)⟩

/-- C16 (as stated) fails: the jump from row 4, column 9 in direction `R` is valid on the
board literal of `main`, and afterwards neither the original location (4,9) nor the
jumped-over location (4,7) holds UNUSED. -/
theorem jump_sets_cells_counterexample :
    legalJump initialBoard 4 9 R ∧
    (jump initialBoard 4 9 R).get 4 9 ≠ UNUSED ∧
    (jump initialBoard 4 9 R).get 4 7 ≠ UNUSED := by
  decide

/-- C17.  Backtracking restores state: for every board `B`, history `H` and move `m`
listed by `findValidMoves B`, if the recursive `solve` call for `m` returns false, then
after the caller's history pop and `undo` the board equals `B` in all 55 cells and the
history equals `H`; and a sentinel call that returns false leaves both board and history
exactly as they were. -/
theorem backtracking_restores (B : Board) (H : Moves) :
    (∀ fuel m b' h', m ∈ (findValidMoves B).2 →
      solve fuel B H m.1.1 m.1.2 m.2 = some (false, b', h') →
      ∃ d, Direction.ofInt m.2 = some d ∧ undo b' m.1.1 m.1.2 d = B ∧ h'.tail = H) ∧
    (∀ fuel b' h', solve fuel B H (-1) (-1) (-1) = some (false, b', h') →
      b' = B ∧ h' = H) := by
  constructor
  · intro fuel m b' h' hm hret
    obtain ⟨d, hd, _, _, hundo, hf, _⟩ := solve_call_result hm hret
    exact ⟨d, hd, hundo, by rw [hf rfl]; rfl⟩
  · intro fuel b' h' hret
    cases fuel with
    | zero => simp [solve] at hret
    | succ f =>
      rw [solve_sentinel] at hret
      obtain ⟨hb, hf, _⟩ := solveRest_result hret
      exact ⟨hb, (hf rfl).1⟩

/-- C19.  No out-of-grid access: for every 5x11 board, every cell index read by
`findValidMoves` and by `validMove` when called from `findValidMoves`, and every cell
index written by `jump` and `undo` on a move that `findValidMoves` produced, lies within
rows 0..4 and columns 0..10. -/
theorem accesses_inGrid (b : Board) :
    (∀ row ∈ rowLoop, ∀ col ∈ colLoop, inGrid row col ∧
      ∀ i ∈ directionLoop, ∀ p ∈ validMoveReads i row col, inGrid p.1 p.2) ∧
    (∀ m ∈ (findValidMoves b).2, ∃ d, Direction.ofInt m.2 = some d ∧
      (∀ w ∈ jumpWrites m.1.1 m.1.2 d, inGrid w.1.1 w.1.2) ∧
      (∀ w ∈ undoWrites m.1.1 m.1.2 d, inGrid w.1.1 w.1.2)) := by
  constructor
  · intro row hrow col hcol
    have hg : inGrid row col := ⟨(mem_rowLoop.1 hrow).1, (mem_rowLoop.1 hrow).2,
      (mem_colLoop.1 hcol).1, (mem_colLoop.1 hcol).2⟩
    exact ⟨hg, fun i _ => validMoveReads_inGrid i row col hg⟩
  · intro m hm
    obtain ⟨d, hd, ⟨hs, hj, hl, _⟩, _⟩ := found_move hm
    have hcells : ∀ p ∈ [(m.1.1, m.1.2), jumpedCell m.1.1 m.1.2 d, landingCell m.1.1 m.1.2 d],
        inGrid p.1 p.2 := by
      intro p hp
      simp only [List.mem_cons, List.mem_singleton, List.not_mem_nil, or_false] at hp
      rcases hp with rfl | rfl | rfl
      · exact hs
      · exact hj
      · exact hl
    refine ⟨d, hd, ?_, ?_⟩
    · intro w hw
      exact hcells w.1 (by rw [← jumpWrites_cells]; exact List.mem_map_of_mem _ hw)
    · intro w hw
      exact hcells w.1 (by rw [← undoWrites_cells]; exact List.mem_map_of_mem _ hw)

/-- C20.  For every board `B`, the sentinel call of `solve` leaves the board equal to `B`
in all 55 cells also when it returns true: `undo` gives the caller's board back after
every recursive call, whether or not it succeeded, so only the history records the
solution, and replaying it with `jump` from the board left behind works. -/
theorem solve_leaves_board (B : Board) :
    (∀ fuel s b' history, solveInitial fuel B = some (s, b', history) →
      b' = B ∧ (∀ r c, inGrid r c → b'.get r c = B.get r c) ∧
      (s = true → ∃ final, replay b' history.reverse = some final ∧
        countCells final EMPTY = 14)) ∧
    (∀ fuel H m s b' h', m ∈ (findValidMoves B).2 →
      solve fuel B H m.1.1 m.1.2 m.2 = some (s, b', h') →
      ∃ d, Direction.ofInt m.2 = some d ∧ undo b' m.1.1 m.1.2 d = B) := by
  constructor
  · intro fuel s b' history hret
    obtain ⟨hb, ht, _⟩ := solveInitial_spec hret
    refine ⟨hb, fun r c _ => by rw [hb], fun hs => ?_⟩
    rw [hb]
    exact winningRun_replay _ _ (firstRun_winningRun _ _ (ht hs))
  · intro fuel H m s b' h' hm hret
    obtain ⟨d, hd, _, _, hundo, _⟩ := solve_call_result hm hret
    exact ⟨d, hd, hundo⟩

/-- C18 (as amended).  For every board on which `solve` succeeds, the returned move
sequence (history, oldest first) is the first winning sequence in depth-first order:
it is a run of jumps listed by `findValidMoves` that ends with 14 EMPTY cells, and it is
lexicographically least among all such runs when, at each step, candidate moves are
ranked by their position in the output of `findValidMoves` for the board at that step.
On the triangular layout these runs are all the sequences of legal jumps that end with
14 EMPTY cells. -/
theorem solve_first_found (fuel : Nat) (b b' : Board) (history : Moves)
    (hret : solveInitial fuel b = some (true, b', history)) :
    winningRun b history.reverse = true ∧
    (∀ q, winningRun b q = true → dfsLe b history.reverse q = true) ∧
    (triangular b → ∀ q final, replay b q = some final → countCells final EMPTY = 14 →
      dfsLe b history.reverse q = true) := by
  obtain ⟨_, ht, _⟩ := solveInitial_spec hret
  have hfirst := ht rfl
  refine ⟨firstRun_winningRun _ _ hfirst, firstRun_least _ _ hfirst, ?_⟩
  intro htri q final hrep h14
  apply firstRun_least _ _ hfirst
  exact replay_winningRun q b final htri hrep
    ((triangular_one_peg (replay_triangular q b final htri hrep)).1 h14)

theorem solve_first_found_witness :
    solveInitial 2 twoPegBoard = some (true, twoPegBoard, [((4, 1), 3)]) ∧
    winningRun twoPegBoard [((4, 1), 3)].reverse = true ∧
    (∀ q, winningRun twoPegBoard q = true → dfsLe twoPegBoard [((4, 1), 3)].reverse q = true) ∧
    (triangular twoPegBoard → ∀ q final, replay twoPegBoard q = some final →
      countCells final EMPTY = 14 → dfsLe twoPegBoard [((4, 1), 3)].reverse q = true) :=
  ⟨by decide, solve_first_found 2 twoPegBoard twoPegBoard [((4, 1), 3)] (by decide)⟩

/-- C18 (as stated) fails off the triangular layout: on `detourBoard` the sentinel call
returns true with the moves ((3,7),R), ((3,1),L) (oldest first), while ((4,6),DR),
((0,10),R) is a sequence of legal jumps that ends with 14 EMPTY cells and comes earlier
in the depth-first order, since ((4,6),DR) stands before ((3,7),R) in the output of
`findValidMoves`. -/
theorem solve_first_found_counterexample :
    solveInitial 3 detourBoard = some (true, detourBoard, [((3, 1), 3), ((3, 7), 0)]) ∧
    (replay detourBoard [((4, 6), 1), ((0, 10), 0)]).map (fun b => countCells b EMPTY)
      = some 14 ∧
    findValidMoves detourBoard = (12, [((4, 6), 1), ((3, 7), 0)]) ∧
    dfsLe detourBoard [((3, 1), 3), ((3, 7), 0)].reverse [((4, 6), 1), ((0, 10), 0)] = false := by
  decide

/-- C15 (the code on its input).  `main` finds a solution of 13 moves and writes 14
frames of 5 lines of 11 characters, the initial board first, then the board after each
move; the second frame follows the first without a blank line, and every further frame is
followed by a blank line, so the text is not the one with a blank line between every two
consecutive frames. -/
theorem main_output_layout (fuel : Nat) :
    ∃ path : List choice, path.length = 13 ∧ winningRun initialBoard path = true ∧
      (frames initialBoard path).length = 14 ∧
      (∀ f ∈ frames initialBoard path, f.length = 60) ∧
      main (fuel + 15) = some (writtenLayout (frames initialBoard path)) ∧
      writtenLayout (frames initialBoard path) ≠
        blankLineSeparated (frames initialBoard path) := by
  obtain ⟨s, h, hall, ht, hf⟩ := solveInitial_returns initialBoard
  have hpegs : countCells initialBoard USED = 14 := by decide
  have hempty : countCells initialBoard EMPTY = 1 := by decide
  have hwin : winningRun initialBoard samplePath = true := by decide
  cases s with
  | false =>
    have := (hf rfl).2 samplePath
    rw [hwin] at this
    cases this
  | true =>
    have hrun := firstRun_winningRun _ _ (ht rfl)
    have hlen := winningRun_length _ _ hrun
    have hdec := winningRun_decodes _ _ hrun
    have hlen13 : h.reverse.length = 13 := by omega
    have hne : h ≠ [] := by
      intro e
      rw [e] at hlen13
      simp at hlen13
    refine ⟨h.reverse, hlen13, hrun, ?_, ?_, ?_, ?_⟩
    · rw [frames_length _ _ hdec, hlen13]
    · intro f hfm
      obtain ⟨b', rfl⟩ := frames_mem _ _ f hfm
      exact frameText_length b'
    · exact mainOn_eq (hall (fuel + 15) (by omega)) hne
        (fun m hm => hdec m (List.mem_reverse.2 hm))
    · cases hp : h.reverse with
      | nil => rw [hp] at hlen13; simp at hlen13
      | cons m ms =>
        obtain ⟨d, hd⟩ := hdec m (by rw [hp]; simp)
        exact writtenLayout_ne initialBoard m ms d hd

theorem unused_cells_fixed_witness :
    ((4, 9), 0) ∈ (findValidMoves initialBoard).2 ∧
    (searchBoard initialBoard samplePath).isSome = true ∧
    ((∀ m ∈ (findValidMoves initialBoard).2, ∃ d, Direction.ofInt m.2 = some d ∧
      (∀ r c, inGrid r c →
        ((jump initialBoard m.1.1 m.1.2 d).get r c = UNUSED ↔
          initialBoard.get r c = UNUSED)) ∧
      (∀ r c, inGrid r c →
        ((undo (jump initialBoard m.1.1 m.1.2 d) m.1.1 m.1.2 d).get r c = UNUSED ↔
          (jump initialBoard m.1.1 m.1.2 d).get r c = UNUSED))) ∧
    (∀ path reached, searchBoard initialBoard path = some reached →
      ∀ r c, inGrid r c → (reached.get r c = UNUSED ↔ initialBoard.get r c = UNUSED))) :=
  ⟨by decide, by decide, unused_cells_fixed initialBoard⟩

theorem backtracking_restores_witness :
    (((4, 1), 3) ∈ (findValidMoves threePegBoard).2 ∧
      solve 2 threePegBoard [] 4 1 3
        = some (false, jump threePegBoard 4 1 L, [((4, 1), 3)]) ∧
      ∃ d, Direction.ofInt 3 = some d ∧
        undo (jump threePegBoard 4 1 L) 4 1 d = threePegBoard ∧
        [(((4, 1), 3) : choice)].tail = []) ∧
    (solve 1 stuckBoard [] (-1) (-1) (-1) = some (false, stuckBoard, []) ∧
      stuckBoard = stuckBoard ∧ ([] : Moves) = []) :=
  ⟨⟨by decide, by decide,
      (backtracking_restores threePegBoard []).1 2 ((4, 1), 3) _ _ (by decide) (by decide)⟩,
    ⟨by decide, (backtracking_restores stuckBoard []).2 1 _ _ (by decide)⟩⟩

theorem accesses_inGrid_witness :
    ((4, 9), 0) ∈ (findValidMoves initialBoard).2 ∧
    (validMoveReads R 4 5 = [(4, 7), (4, 9)]) ∧
    ((∀ row ∈ rowLoop, ∀ col ∈ colLoop, inGrid row col ∧
      ∀ i ∈ directionLoop, ∀ p ∈ validMoveReads i row col, inGrid p.1 p.2) ∧
    (∀ m ∈ (findValidMoves initialBoard).2, ∃ d, Direction.ofInt m.2 = some d ∧
      (∀ w ∈ jumpWrites m.1.1 m.1.2 d, inGrid w.1.1 w.1.2) ∧
      (∀ w ∈ undoWrites m.1.1 m.1.2 d, inGrid w.1.1 w.1.2))) :=
  ⟨by decide, by decide, accesses_inGrid initialBoard⟩

theorem solve_leaves_board_witness :
    solveInitial 2 twoPegBoard = some (true, twoPegBoard, [((4, 1), 3)]) ∧
    (twoPegBoard = twoPegBoard ∧
      (∀ r c, inGrid r c → twoPegBoard.get r c = twoPegBoard.get r c) ∧
      (true = true → ∃ final, replay twoPegBoard [(((4, 1), 3) : choice)].reverse = some final ∧
        countCells final EMPTY = 14)) :=
  ⟨by decide, (solve_leaves_board twoPegBoard).1 2 true twoPegBoard [((4, 1), 3)] (by decide)⟩

/-- C21.  For every board, if the sentinel call of `solve` started with an empty history
returns true, the history holds exactly 14 minus (the number of EMPTY cells of the input
board) moves; in particular it holds at most 14 moves, and so does every path the search
can have on its history while it runs.  (A false result leaves the history empty.) -/
theorem solve_history_length (fuel : Nat) (b b' : Board) (s : Bool) (history : Moves)
    (hret : solveInitial fuel b = some (s, b', history)) :
    (s = true →
      history.length = 14 - countCells b EMPTY ∧
      history.length + countCells b EMPTY = 14 ∧
      searchPath b history.reverse = true ∧
      ∀ path, searchPath b path = true → path.length ≤ 14 - countCells b EMPTY) ∧
    history.length ≤ 14 := by
  obtain ⟨_, ht, hf⟩ := solveInitial_spec hret
  cases s with
  | false =>
    refine ⟨fun h => Bool.noConfusion h, ?_⟩
    rw [(hf rfl).1]
    simp
  | true =>
    have hrun := firstRun_winningRun _ _ (ht rfl)
    have hlen := winningRun_length _ _ hrun
    rw [List.length_reverse] at hlen
    refine ⟨fun _ => ⟨by omega, hlen, winningRun_searchPath _ _ hrun, ?_⟩, by omega⟩
    intro path hp
    have := searchPath_length path b hp (by omega)
    omega

theorem solve_history_length_witness :
    solveInitial 2 twoPegBoard = some (true, twoPegBoard, [((4, 1), 3)]) ∧
    countCells twoPegBoard EMPTY = 13 ∧
    ((true = true →
      [(((4, 1), 3) : choice)].length = 14 - countCells twoPegBoard EMPTY ∧
      [(((4, 1), 3) : choice)].length + countCells twoPegBoard EMPTY = 14 ∧
      searchPath twoPegBoard [(((4, 1), 3) : choice)].reverse = true ∧
      ∀ path, searchPath twoPegBoard path = true →
        path.length ≤ 14 - countCells twoPegBoard EMPTY) ∧
    [(((4, 1), 3) : choice)].length ≤ 14) :=
  ⟨by decide, by decide,
    solve_history_length 2 twoPegBoard twoPegBoard true [((4, 1), 3)] (by decide)⟩

end PegBoard
